import Mathlib

/-!
Verification of the expression compiler, RPN evaluator, structured text Field
and mode controller of the avr-calculator firmware (src/main.c).

Modelling conventions:
* Characters are byte values (`ℕ`); the display-specific codes 0xF7 (pi) and
  0xFD (division) are kept as the numbers 247 and 253.  A buffer is the list
  of bytes before the NUL terminator; the terminator itself is implicit
  (reads past the end of a list default to 0, the terminator byte).
* The C `float` arithmetic of the tokenizer is exact decimal arithmetic, so
  literal values are modelled as `ℚ`; the evaluator's `float` arithmetic and
  the `<math.h>` functions are modelled over `ℝ` (`Real.log`, `Real.sin`,
  `Real.rpow`, ...).  The `math.h` constant `M_PI` is kept as the rational
  literal from the header.
* The fixed-capacity arrays (`tok_type_list`, `op_stack`, `num_stack`) are
  lists whose length is checked against the same bounds the C code checks
  (`>= SIZE - 1`) before each store.
* `uint8_t` error codes keep their C values: `ERROR_SYNTAX = 1`,
  `ERROR_MATH = 2`, `ERROR_NOMEM = 3`, `ERROR_RANGE = 4`; a function that
  returns an error code or a result is modelled with `Except ℕ`.
-/

namespace AvrCalc

/-! ## Character and token constants (enum CHAR, enum TOKEN_TYPE, sizes) -/

def CHAR_X : ℕ := 120
def CHAR_DP : ℕ := 46
def CHAR_LP : ℕ := 40
def CHAR_RP : ℕ := 41
def CHAR_PI : ℕ := 247
def CHAR_ADD : ℕ := 43
def CHAR_SUB : ℕ := 45
def CHAR_MUL : ℕ := 42
def CHAR_DIV : ℕ := 253
def CHAR_POW : ℕ := 94

def TT_NULL : ℕ := 0
def TT_NUMBER : ℕ := 1
def TT_X : ℕ := 2
def TT_LP : ℕ := 3
def TT_RP : ℕ := 4
def TT_UNARY_MINUS : ℕ := 5
def TT_LOG : ℕ := 6
def TT_SIN : ℕ := 7
def TT_COS : ℕ := 8
def TT_TAN : ℕ := 9
def TT_ASIN : ℕ := 10
def TT_ACOS : ℕ := 11
def TT_ATAN : ℕ := 12
def TT_ADD : ℕ := 13
def TT_SUB : ℕ := 14
def TT_MUL : ℕ := 15
def TT_DIV : ℕ := 16
def TT_POW : ℕ := 17

def ERROR_SYNTAX : ℕ := 1
def ERROR_MATH : ℕ := 2
def ERROR_NOMEM : ℕ := 3
def ERROR_RANGE : ℕ := 4

def NUMBER_STACK_SIZE : ℕ := 32
def OPERATOR_STACK_SIZE : ℕ := 32
def TOKEN_LIST_SIZE : ℕ := 32
def TERM_MAX_LEN : ℕ := 256

/-- `ctype.h` `isdigit` on the ASCII range used by the firmware. -/
def isDigitB (c : ℕ) : Bool := 48 ≤ c && c ≤ 57

/-- `ctype.h` `islower` on the ASCII range used by the firmware (the display
codes 0xF7/0xFD are above the letter range). -/
def isLowerB (c : ℕ) : Bool := 97 ≤ c && c ≤ 122

/-- `get_precedence` from src/main.c: add/sub rank 3, mul/div rank 2,
pow rank 1, everything else (parentheses, unary tokens) rank 0. -/
def get_precedence (tt : ℕ) : ℕ :=
  if tt = TT_ADD ∨ tt = TT_SUB then 3
  else if tt = TT_MUL ∨ tt = TT_DIV then 2
  else if tt = TT_POW then 1
  else 0

/-! ## Tokenizer helpers (the number-parsing loops of `calc_prepare`) -/

/-- The scan `for(dps = 0, begin = term; (c = *term); ++term) ...` locating
the end of a numeric literal: consume digits and at most one decimal point,
fail with `ERROR_SYNTAX` at a second decimal point, stop at any other
character (or at the terminator).  Returns the consumed prefix and rest. -/
def numScan : List ℕ → ℕ → Except ℕ (List ℕ × List ℕ)
  | [], _ => .ok ([], [])
  | c :: r, dps =>
    if c = CHAR_DP then
      if dps + 1 > 1 then .error ERROR_SYNTAX
      else
        match numScan r (dps + 1) with
        | .error e => .error e
        | .ok (a, b) => .ok (c :: a, b)
    else if isDigitB c then
      match numScan r dps with
      | .error e => .error e
      | .ok (a, b) => .ok (c :: a, b)
    else .ok ([], c :: r)

/-- The loop accumulating digits before the decimal point
(`n = n * 10.0 + c - '0'`); stops after skipping the decimal point.
Returns the accumulator and the remaining (fractional) digits. -/
def numInt : ℚ → List ℕ → ℚ × List ℕ
  | n, [] => (n, [])
  | n, c :: r => if c = CHAR_DP then (n, r) else numInt (n * 10 + ((c : ℚ) - 48)) r

/-- The loop accumulating digits after the decimal point
(`n = n * 10.0 + *begin - '0'; power *= 10.0`). -/
def numFrac : ℚ → ℚ → List ℕ → ℚ × ℚ
  | n, power, [] => (n, power)
  | n, power, c :: r => numFrac (n * 10 + ((c : ℚ) - 48)) (power * 10) r

/-- Value of a scanned numeric literal: integer part, fractional part,
final `n / power`. -/
def numValue (chars : List ℕ) : ℚ :=
  let ip := numInt 0 chars
  let fp := numFrac ip.1 1 ip.2
  fp.1 / fp.2

/-- The `math.h` double constant `M_PI`, kept as the exact rational value of
the header's decimal literal. -/
def M_PI : ℚ := 3.14159265358979323846

/-! ## Shunting-yard helpers of `calc_prepare`

The operator stack is a list with its top at the head; the token stream
grows at the tail (the C code appends at `tok_cnt`). -/

/-- The `)`-handler loop: pop and emit operators until the `TT_LP` marker is
found and discarded; empty stack means a missing opening bracket
(`ERROR_SYNTAX`); each emission checks the token-stream bound.
Returns the remaining stack and the extended token stream. -/
def popToLP : List ℕ → List ℕ → Except ℕ (List ℕ × List ℕ)
  | [], _ => .error ERROR_SYNTAX
  | t :: s, toks =>
    if t = TT_LP then .ok (s, toks)
    else if toks.length ≥ TOKEN_LIST_SIZE - 1 then .error ERROR_NOMEM
    else popToLP s (toks ++ [t])

/-- The operator pop loop: pop and emit while the stacked operator's rank is
not strictly greater than `prec` and it is not a left-parenthesis marker.
Returns the remaining stack and the extended token stream. -/
def popLower (prec : ℕ) : List ℕ → List ℕ → Except ℕ (List ℕ × List ℕ)
  | [], toks => .ok ([], toks)
  | t :: s, toks =>
    if get_precedence t > prec ∨ t = TT_LP then .ok (t :: s, toks)
    else if toks.length ≥ TOKEN_LIST_SIZE - 1 then .error ERROR_NOMEM
    else popLower prec s (toks ++ [t])

/-- The `if(isop)` block of `calc_prepare`: run the pop loop for the new
operator token `cur`, then push it onto the operator stack (checking the
operator-stack bound).  Returns the new stack and token stream. -/
def shunt (cur : ℕ) (stack toks : List ℕ) : Except ℕ (List ℕ × List ℕ) :=
  match popLower (get_precedence cur) stack toks with
  | .error e => .error e
  | .ok (stack2, toks2) =>
    if stack2.length ≥ OPERATOR_STACK_SIZE - 1 then .error ERROR_NOMEM
    else .ok (cur :: stack2, toks2)

/-- The final loop of `calc_prepare`: pop every remaining operator-stack
entry into the token stream in pop order, checking the token-stream bound. -/
def finalPop : List ℕ → List ℕ → Except ℕ (List ℕ)
  | [], toks => .ok toks
  | t :: s, toks =>
    if toks.length ≥ TOKEN_LIST_SIZE - 1 then .error ERROR_NOMEM
    else finalPop s (toks ++ [t])

/-- The `-` context rule: unary after nothing, an operator or `(`;
binary subtraction after a number, the free variable or `)`; otherwise the
C `switch` falls through and leaves `cur_type` unchanged. -/
def subKind (cur : ℕ) : ℕ :=
  if cur = TT_NULL ∨ cur = TT_ADD ∨ cur = TT_SUB ∨ cur = TT_MUL ∨
     cur = TT_DIV ∨ cur = TT_POW ∨ cur = TT_LP then TT_UNARY_MINUS
  else if cur = TT_NUMBER ∨ cur = TT_X ∨ cur = TT_RP then TT_SUB
  else cur

/-- Main loop of `calc_prepare`, translated branch by branch.  `fuel` is a
structural bound on the number of iterations; every iteration consumes at
least one character, so `fuel = length + 1` (as supplied by `calc_prepare`)
never runs out and the fuel-exhaustion branch is unreachable.
A NUL byte inside the list ends the scan like the C `while((c = *term))`.
For the function-name characters the scan advances past the stored name
exactly as the C pointer arithmetic does (`l`/`s`/`c`/`t`: 3 characters,
`a` plus a lookahead: 4 characters). -/
def prepLoop : ℕ → List ℕ → ℕ → List ℕ → List ℚ → List ℕ →
    Except ℕ (List ℕ × List ℚ)
  | 0, _, _, _, _, _ => .error ERROR_SYNTAX
  | _ + 1, [], _, toks, nums, stack =>
    match finalPop stack toks with
    | .error e => .error e
    | .ok toks2 => .ok (toks2, nums)
  | fuel + 1, c :: rest, cur, toks, nums, stack =>
    if c = 0 then
      match finalPop stack toks with
      | .error e => .error e
      | .ok toks2 => .ok (toks2, nums)
    else if isDigitB c then
      match numScan (c :: rest) 0 with
      | .error e => .error e
      | .ok (chars, rest2) =>
        if toks.length ≥ TOKEN_LIST_SIZE - 1 then .error ERROR_NOMEM
        else prepLoop fuel rest2 TT_NUMBER (toks ++ [TT_NUMBER])
          (nums ++ [numValue chars]) stack
    else if c = CHAR_SUB then
      match shunt (subKind cur) stack toks with
      | .error e => .error e
      | .ok (stack2, toks2) => prepLoop fuel rest (subKind cur) toks2 nums stack2
    else if c = CHAR_PI then
      if toks.length ≥ TOKEN_LIST_SIZE - 1 then .error ERROR_NOMEM
      else prepLoop fuel rest TT_NUMBER (toks ++ [TT_NUMBER]) (nums ++ [M_PI]) stack
    else if c = CHAR_X then
      if toks.length ≥ TOKEN_LIST_SIZE - 1 then .error ERROR_NOMEM
      else prepLoop fuel rest TT_X (toks ++ [TT_X]) nums stack
    else if c = CHAR_LP then
      if stack.length ≥ OPERATOR_STACK_SIZE - 1 then .error ERROR_NOMEM
      else prepLoop fuel rest TT_LP toks nums (TT_LP :: stack)
    else if c = CHAR_RP then
      match popToLP stack toks with
      | .error e => .error e
      | .ok (stack2, toks2) => prepLoop fuel rest TT_RP toks2 nums stack2
    else if c = CHAR_ADD then
      match shunt TT_ADD stack toks with
      | .error e => .error e
      | .ok (stack2, toks2) => prepLoop fuel rest TT_ADD toks2 nums stack2
    else if c = CHAR_MUL then
      match shunt TT_MUL stack toks with
      | .error e => .error e
      | .ok (stack2, toks2) => prepLoop fuel rest TT_MUL toks2 nums stack2
    else if c = CHAR_DIV then
      match shunt TT_DIV stack toks with
      | .error e => .error e
      | .ok (stack2, toks2) => prepLoop fuel rest TT_DIV toks2 nums stack2
    else if c = CHAR_POW then
      match shunt TT_POW stack toks with
      | .error e => .error e
      | .ok (stack2, toks2) => prepLoop fuel rest TT_POW toks2 nums stack2
    else if c = 108 then
      match shunt TT_LOG stack toks with
      | .error e => .error e
      | .ok (stack2, toks2) => prepLoop fuel (rest.drop 2) TT_LOG toks2 nums stack2
    else if c = 97 then
      match shunt (if rest.headD 0 = 115 then TT_ASIN
        else if rest.headD 0 = 99 then TT_ACOS
        else if rest.headD 0 = 116 then TT_ATAN else cur) stack toks with
      | .error e => .error e
      | .ok (stack2, toks2) =>
        prepLoop fuel (rest.drop 3)
          (if rest.headD 0 = 115 then TT_ASIN
           else if rest.headD 0 = 99 then TT_ACOS
           else if rest.headD 0 = 116 then TT_ATAN else cur) toks2 nums stack2
    else if c = 115 then
      match shunt TT_SIN stack toks with
      | .error e => .error e
      | .ok (stack2, toks2) => prepLoop fuel (rest.drop 2) TT_SIN toks2 nums stack2
    else if c = 99 then
      match shunt TT_COS stack toks with
      | .error e => .error e
      | .ok (stack2, toks2) => prepLoop fuel (rest.drop 2) TT_COS toks2 nums stack2
    else if c = 116 then
      match shunt TT_TAN stack toks with
      | .error e => .error e
      | .ok (stack2, toks2) => prepLoop fuel (rest.drop 2) TT_TAN toks2 nums stack2
    else
      match shunt cur stack toks with
      | .error e => .error e
      | .ok (stack2, toks2) => prepLoop fuel rest cur toks2 nums stack2

/-- `calc_prepare` from src/main.c: tokenize a terminated character buffer
and convert it to a postfix token stream (token types plus the parallel
literal table), or return an error code. -/
def calc_prepare (term : List ℕ) : Except ℕ (List ℕ × List ℚ) :=
  prepLoop (term.length + 1) term TT_NULL [] [] []

/-! ## Evaluator (`calc_solve`)

The degree-based trigonometry macros of src/main.c, over `ℝ`. -/

/-- `DEG_TO_RAD(deg) = deg * M_PI / 180.0`. -/
noncomputable def DEG_TO_RAD (deg : ℝ) : ℝ := deg * ((M_PI : ℚ) : ℝ) / 180

/-- `RAD_TO_DEG(rad) = rad * (180.0 / M_PI)`. -/
noncomputable def RAD_TO_DEG (rad : ℝ) : ℝ := rad * (180 / ((M_PI : ℚ) : ℝ))

noncomputable def SIND (x : ℝ) : ℝ := Real.sin (DEG_TO_RAD x)
noncomputable def COSD (x : ℝ) : ℝ := Real.cos (DEG_TO_RAD x)
noncomputable def TAND (x : ℝ) : ℝ := Real.tan (DEG_TO_RAD x)
noncomputable def ASIND (x : ℝ) : ℝ := RAD_TO_DEG (Real.arcsin x)
noncomputable def ACOSD (x : ℝ) : ℝ := RAD_TO_DEG (Real.arccos x)
noncomputable def ATAND (x : ℝ) : ℝ := RAD_TO_DEG (Real.arctan x)

/-- `asin_acos_range` from src/main.c: `n >= -1 && n <= 1`. -/
def asin_acos_range (n : ℝ) : Prop := -1 ≤ n ∧ n ≤ 1

noncomputable instance (n : ℝ) : Decidable (asin_acos_range n) :=
  inferInstanceAs (Decidable (-1 ≤ n ∧ n ≤ 1))

/-- Result of the inner operator `switch` of `calc_solve` on the popped
operand(s): an error code, a value to push, or `none` for the `default:
continue;` case (a stray infix token in the stream drops its operands).
`l`/`r` are `op_left`/`op_right`; unary operators receive `r = 0`. -/
noncomputable def opResult (t : ℕ) (l r : ℝ) : Except ℕ (Option ℝ) :=
  if t = TT_UNARY_MINUS then .ok (some (-l))
  else if t = TT_ADD then .ok (some (l + r))
  else if t = TT_SUB then .ok (some (l - r))
  else if t = TT_MUL then .ok (some (l * r))
  else if t = TT_DIV then
    if r = 0 then .error ERROR_MATH else .ok (some (l / r))
  else if t = TT_LOG then .ok (some (Real.log l))
  else if t = TT_SIN then .ok (some (SIND l))
  else if t = TT_COS then .ok (some (COSD l))
  else if t = TT_TAN then .ok (some (TAND l))
  else if t = TT_ASIN then
    if asin_acos_range l then .ok (some (ASIND l)) else .error ERROR_MATH
  else if t = TT_ACOS then
    if asin_acos_range l then .ok (some (ACOSD l)) else .error ERROR_MATH
  else if t = TT_ATAN then .ok (some (ATAND l))
  else if t = TT_POW then .ok (some (Real.rpow l r))
  else .ok none

/-- Main loop of `calc_solve`: execute the postfix token stream over the
number stack (a list with its top at the head), consuming the parallel
literal table entry by entry at each `TT_NUMBER`.  Tokens below `TT_ADD`
pop one operand, the binary tokens pop two (right first); popping from an
empty (or singleton, for binary) stack is `ERROR_SYNTAX`, pushing past the
bound is `ERROR_NOMEM`.  At the end exactly one value must remain. -/
noncomputable def solveGo (x : ℝ) : List ℕ → List ℚ → List ℝ → Except ℕ ℝ
  | [], _, stack =>
    match stack with
    | [v] => .ok v
    | _ => .error ERROR_SYNTAX
  | t :: ts, nums, stack =>
    if t = TT_NUMBER then
      if stack.length ≥ NUMBER_STACK_SIZE - 1 then .error ERROR_NOMEM
      else solveGo x ts nums.tail (((nums.headD 0 : ℚ) : ℝ) :: stack)
    else if t = TT_X then
      if stack.length ≥ NUMBER_STACK_SIZE - 1 then .error ERROR_NOMEM
      else solveGo x ts nums (x :: stack)
    else if t < TT_ADD then
      match stack with
      | [] => .error ERROR_SYNTAX
      | l :: s =>
        match opResult t l 0 with
        | .error e => .error e
        | .ok none => solveGo x ts nums s
        | .ok (some v) =>
          if s.length ≥ NUMBER_STACK_SIZE - 1 then .error ERROR_NOMEM
          else solveGo x ts nums (v :: s)
    else
      match stack with
      | [] => .error ERROR_SYNTAX
      | [_] => .error ERROR_SYNTAX
      | r :: l :: s =>
        match opResult t l r with
        | .error e => .error e
        | .ok none => solveGo x ts nums s
        | .ok (some v) =>
          if s.length ≥ NUMBER_STACK_SIZE - 1 then .error ERROR_NOMEM
          else solveGo x ts nums (v :: s)

/-- `calc_solve` from src/main.c: evaluate a compiled token stream (types
plus literal table) with `x` substituted for the free variable. -/
noncomputable def calc_solve (ts : List ℕ) (nums : List ℚ) (x : ℝ) : Except ℕ ℝ :=
  solveGo x ts nums []

/-- Compile a buffer and evaluate the result at `x` (the commit path of the
controller: `calc_prepare` then `calc_solve`). -/
noncomputable def compileSolve (term : List ℕ) (x : ℝ) : Except ℕ ℝ :=
  match calc_prepare term with
  | .error e => .error e
  | .ok (ts, nums) => calc_solve ts nums x

/-! ## Mode controller -/

/-- The five application modes (which handler pair `_mode`/`_event` is
installed), with the payload each one is shown with. -/
inductive AppMode where
  | input : AppMode
  | result : ℝ → AppMode
  | settings : AppMode
  | table : AppMode
  | error : ℕ → AppMode

/-- The `KEY_3_3` ("enter") branch of `mode_input_event`: compile the
expression buffer; on compile error go to the error mode; otherwise
evaluate at 0 and dispatch on the free-variable usage counter exactly as
the C code does (`if(x_cnt){ if(err && err != ERROR_MATH) ... }`). -/
noncomputable def mode_input_enter (term : List ℕ) (x_cnt : ℕ) : AppMode :=
  match calc_prepare term with
  | .error err => .error err
  | .ok (ts, nums) =>
    match calc_solve ts nums 0 with
    | .error err =>
      if x_cnt ≠ 0 then
        if err ≠ ERROR_MATH then .error err else .settings
      else .error err
    | .ok y => if x_cnt ≠ 0 then .settings else .result y

/-- `UNSHIFT(key) = key & ~(1 << 4)` for the key codes 0..31. -/
def unshift (key : ℕ) : ℕ := key % 16

def KEY_3_3 : ℕ := 0
def KEY_1_2 : ℕ := 6
def KEY_2_1 : ℕ := 9
def KEY_1_1 : ℕ := 10
def KEY_0_1 : ℕ := 11
def KEY_1_0 : ℕ := 14
def KEY_0_0 : ℕ := 15

/-- `mode_table_update` from src/main.c: compute `x = tbl_start + tbl_pos *
tbl_step`, evaluate the retained stream at `x`, and render `x` together
with either the value of `y` or (on any evaluation error) the fixed ERROR
marker, modelled as `none`.  The function installs no handler: it can never
change the active mode. -/
noncomputable def mode_table_update (ts : List ℕ) (nums : List ℚ)
    (start step pos : ℚ) : ℚ × Option ℝ :=
  (start + pos * step,
    match calc_solve ts nums ((start + pos * step : ℚ) : ℝ) with
    | .error _ => none
    | .ok y => some y)

/-- `mode_table_event` from src/main.c: the resulting mode and table
position for each (unshifted) key; only `KEY_0_0` installs another handler
(`mode_input`), every other key leaves the table handler installed. -/
def mode_table_event (pos : ℚ) (key : ℕ) : AppMode × ℚ :=
  if unshift key = KEY_0_0 then (.input, pos)
  else if unshift key = KEY_0_1 then (.table, pos - 10)
  else if unshift key = KEY_1_0 then (.table, pos - 1)
  else if unshift key = KEY_1_1 then (.table, 0)
  else if unshift key = KEY_1_2 then (.table, pos + 1)
  else if unshift key = KEY_2_1 then (.table, pos + 10)
  else (.table, pos)

/-- `mode_table` from src/main.c: on entry the position is reset to 0 and
the table display is updated once. -/
noncomputable def mode_table (ts : List ℕ) (nums : List ℚ)
    (start step : ℚ) : ℚ × (ℚ × Option ℝ) :=
  (0, mode_table_update ts nums start step 0)

/-- Digits accumulated by `atof`: `n` is the value so far; stops at the
first non-digit. -/
def atofDigits : ℚ → List ℕ → ℚ × List ℕ
  | n, [] => (n, [])
  | n, c :: r =>
    if isDigitB c then atofDigits (n * 10 + ((c : ℚ) - 48)) r else (n, c :: r)

/-- Fractional digits accumulated by `atof` with their power of ten. -/
def atofFrac : ℚ → ℚ → List ℕ → ℚ
  | n, power, [] => n / power
  | n, power, c :: r =>
    if isDigitB c then atofFrac (n * 10 + ((c : ℚ) - 48)) (power * 10) r
    else n / power

/-- Unsigned part of `atof`: integer digits, then an optional fractional
part after a decimal point. -/
def atofNum (s : List ℕ) : ℚ :=
  let ip := atofDigits 0 s
  match ip.2 with
  | 46 :: r => atofFrac ip.1 1 r
  | _ => ip.1

/-- Modelled from the spec: the C library `atof` called by
`mode_settings_event` is not part of the repository; per the spec it parses
the Field's text as a float and defaults to 0.0 when nothing can be parsed.
Modelled here on the character set a settings Field can contain (digits,
one optional leading minus inserted only into the start field, a decimal
point): optional sign, integer digits, optional fractional part; an input
with no leading digits or point parses as 0. -/
def atof (s : List ℕ) : ℚ :=
  match s with
  | 45 :: r => -(atofNum r)
  | _ => atofNum s

/-- The `KEY_3_3` ("enter") branch of `mode_settings_event`: parse the
start field (an invalid start is just used as 0.0), parse the step field;
a step of exactly zero is `ERROR_RANGE`, otherwise enter table mode, whose
entry code resets the position to 0.  Returns (mode, tbl_start, tbl_step,
tbl_pos). -/
def mode_settings_commit (pos : ℚ) (bufStart bufStep : List ℕ) :
    AppMode × ℚ × ℚ × ℚ :=
  let start := atof bufStart
  let step := atof bufStep
  if step = 0 then (.error ERROR_RANGE, start, step, pos)
  else (.table, start, step, 0)

/-! ## Structured Field

The C `Field` keeps a byte buffer with a NUL terminator, a cursor `pos`, a
length `len` and a capacity `max` (`pos`/`len` are `int16_t`).  Here `buf`
is the list of content bytes before the terminator (so `len` is its
length, kept as an integer to mirror the signed C arithmetic), and the
display-only members `row`/`col`/`width` are omitted.  The byte just
before the buffer (index -1, reachable by the C scan loops when an entire
prefix is lowercase) belongs to the preceding global; it is modelled as a
non-letter byte, which is what the AVR memory layout provides. -/

structure Field where
  buf : List ℕ
  pos : ℤ
  maxLen : ℤ

/-- The Field's `len` member (always the content length here). -/
def flen (f : Field) : ℤ := (f.buf.length : ℤ)

/-- Byte read `f->buf[i]`: out-of-range reads return a non-letter byte
(0, the terminator / non-buffer memory). -/
def charAt (f : Field) (i : ℤ) : ℕ :=
  if 0 ≤ i then f.buf.getD i.toNat 0 else 0

/-- Length of the maximal run of lowercase letters at the end of `l`. -/
def trailLower (l : List ℕ) : ℕ := (l.reverse.takeWhile isLowerB).length

/-- The backward scan `for(++n; islower(f->buf[f->pos - n]); ++n)` of
`field_term_delete` / `field_term_mv_left`: the length of the maximal run
of lowercase letters ending at index `i` (inclusive), scanning down and
stopping at a non-letter or at the front of the buffer. -/
def backRun (buf : List ℕ) (i : ℤ) : ℕ :=
  if 0 ≤ i then trailLower (buf.take (i.toNat + 1)) else 0

/-- The forward scan `while(islower(f->buf[f->pos])) ++pos;` of
`field_term_mv_right`: length of the lowercase run starting at index `i`
(the terminator stops it). -/
def fwdRun (buf : List ℕ) (i : ℕ) : ℕ := ((buf.drop i).takeWhile isLowerB).length

/-- `field_ins_chr` from src/main.c: no-op unless `len + 1 < max`;
otherwise grow by one at the cursor, store `c`, advance the cursor. -/
def field_ins_chr (f : Field) (c : ℕ) : Field :=
  if flen f + 1 < f.maxLen then
    { f with buf := f.buf.take f.pos.toNat ++ c :: f.buf.drop f.pos.toNat,
             pos := f.pos + 1 }
  else f

/-- `field_ins_str_P` from src/main.c: insert a function name followed by
an opening parenthesis as one growth of `name_len + 1`; no-op unless
`len + n + 1 < max`. -/
def field_ins_str_P (f : Field) (name : List ℕ) : Field :=
  if flen f + name.length + 1 < f.maxLen then
    { f with buf := f.buf.take f.pos.toNat ++ name ++ CHAR_LP :: f.buf.drop f.pos.toNat,
             pos := f.pos + (name.length : ℤ) + 1 }
  else f

/-- `field_clear` from src/main.c. -/
def field_clear (f : Field) : Field := { f with buf := [], pos := 0 }

/-- Number of bytes `field_term_delete` removes before the cursor: one, or
the whole lowercase-run-plus-parenthesis unit when the byte before the
cursor is `(`. -/
def deleteSpan (f : Field) : ℤ :=
  if charAt f (f.pos - 1) = CHAR_LP then 1 + (backRun f.buf (f.pos - 2) : ℤ) else 1

/-- `field_term_delete` from src/main.c (Field part; the `x_cnt` update
lives in `input_delete` below): no-op at position 0; otherwise remove
`deleteSpan` bytes ending at the cursor and move the cursor back by the
same amount. -/
def field_term_delete (f : Field) : Field :=
  if 0 < f.pos then
    { f with buf := f.buf.take (f.pos - deleteSpan f).toNat ++ f.buf.drop f.pos.toNat,
             pos := f.pos - deleteSpan f }
  else f

/-- `field_term_mv_left` from src/main.c: step left; if that lands on a
`(`, also skip the whole lowercase run before it; at position 0 wrap to
the end. -/
def field_term_mv_left (f : Field) : Field :=
  if 0 < f.pos then
    if charAt f (f.pos - 1) = CHAR_LP then
      { f with pos := f.pos - 1 - (backRun f.buf (f.pos - 2) : ℤ) }
    else { f with pos := f.pos - 1 }
  else { f with pos := flen f }

/-- `field_term_mv_right` from src/main.c: unless the cursor is on the
free-variable character, first skip the lowercase run under the cursor;
then step right; at the end wrap to 0. -/
def field_term_mv_right (f : Field) : Field :=
  if f.pos < flen f then
    if charAt f f.pos = CHAR_X then { f with pos := f.pos + 1 }
    else { f with pos := f.pos + (fwdRun f.buf f.pos.toNat : ℤ) + 1 }
  else { f with pos := 0 }

/-! ## Well-formed Field contents

The expression Field only ever receives single non-letter characters, the
free-variable character, or a whole function name followed by `(`; its
buffer is therefore a concatenation of such units and its cursor sits at a
unit boundary.  `WF l` says `l` is a concatenation of units. -/

/-- A single character the input mode can insert: never a lowercase letter
other than the free-variable character. -/
def CharOK (c : ℕ) : Prop := isLowerB c = false ∨ c = CHAR_X

/-- A function name as stored by `field_ins_str_P`: nonempty, all
lowercase, never containing the free-variable character. -/
def NameOK (nm : List ℕ) : Prop :=
  nm ≠ [] ∧ ∀ c ∈ nm, isLowerB c = true ∧ c ≠ CHAR_X

instance (c : ℕ) : Decidable (CharOK c) := inferInstanceAs (Decidable (_ ∨ _))

instance (nm : List ℕ) : Decidable (NameOK nm) := inferInstanceAs (Decidable (_ ∧ _))

/-- Buffer contents built from insertable units. -/
inductive WF : List ℕ → Prop where
  | nil : WF []
  | chr {c : ℕ} {rest : List ℕ} : CharOK c → WF rest → WF (c :: rest)
  | fn {nm : List ℕ} {rest : List ℕ} : NameOK nm → WF rest → WF (nm ++ CHAR_LP :: rest)

/-- Strengthened invariant of the expression Field: the buffer splits at
the cursor into two well-formed unit sequences and the capacity bound
holds. -/
def Good (f : Field) : Prop :=
  ∃ pre post, f.buf = pre ++ post ∧ (pre.length : ℤ) = f.pos ∧
    WF pre ∧ WF post ∧ flen f < f.maxLen

/-- The single characters `mode_input_event` can insert into the
expression Field (digits, parentheses, decimal point, pi, power, plus,
minus, times, division, the free variable). -/
def termChars : List ℕ :=
  [49, 52, 55, 40, 50, 53, 56, 48, 51, 54, 57, 41, 46, 247, 94, 43, 45, 42, 253, 120]

/-- The function names `mode_input_event` can insert (sin, cos, tan, asin,
acos, atan, log). -/
def fnNames : List (List ℕ) :=
  [[115, 105, 110], [99, 111, 115], [116, 97, 110], [97, 115, 105, 110],
   [97, 99, 111, 115], [97, 116, 97, 110], [108, 111, 103]]

/-- Expression-Field states reachable through `mode_input_event`: from the
startup Field (empty, capacity `TERM_MAX_LEN`) by the six editing
operations with the arguments the key handler can supply. -/
inductive Reachable : Field → Prop where
  | init : Reachable ⟨[], 0, (TERM_MAX_LEN : ℤ)⟩
  | ins {f c} : Reachable f → c ∈ termChars → Reachable (field_ins_chr f c)
  | insfn {f nm} : Reachable f → nm ∈ fnNames → Reachable (field_ins_str_P f nm)
  | del {f} : Reachable f → Reachable (field_term_delete f)
  | mvl {f} : Reachable f → Reachable (field_term_mv_left f)
  | mvr {f} : Reachable f → Reachable (field_term_mv_right f)
  | clr {f} : Reachable f → Reachable (field_clear f)

/-! ## Input mode state (expression Field plus the `x_cnt` counter) -/

structure InputState where
  fld : Field
  x_cnt : ℕ

/-- Insertion of a plain character key (not the free-variable key). -/
def input_ins_chr (s : InputState) (c : ℕ) : InputState :=
  { s with fld := field_ins_chr s.fld c }

/-- The free-variable key `KEY_SHIFT_0_2`: `field_ins_chr(&fld_term,
CHAR_X); ++x_cnt;` — note the counter is incremented even when the
insertion was a capacity no-op. -/
def input_ins_x (s : InputState) : InputState :=
  { fld := field_ins_chr s.fld CHAR_X, x_cnt := s.x_cnt + 1 }

/-- A function-name key. -/
def input_ins_fn (s : InputState) (nm : List ℕ) : InputState :=
  { s with fld := field_ins_str_P s.fld nm }

/-- The clear key `KEY_3_0`: `field_clear(&fld_term); x_cnt = 0;`. -/
def input_clear (s : InputState) : InputState :=
  { fld := field_clear s.fld, x_cnt := 0 }

/-- The delete key `KEY_3_1` (`field_term_delete` including its counter
update): the counter is decremented only when the single byte directly
before the cursor is the free-variable character.  (In C the counter is a
`uint8_t`; the decrement is modelled on `ℕ`, which agrees as long as the
counter is positive whenever it is decremented.) -/
def input_delete (s : InputState) : InputState :=
  if 0 < s.fld.pos then
    { fld := field_term_delete s.fld,
      x_cnt := if charAt s.fld (s.fld.pos - 1) = CHAR_X then s.x_cnt - 1 else s.x_cnt }
  else s

/-- Adjacency constraint between buffer bytes: a free-variable character
is not directly followed by a lowercase letter or an opening parenthesis.
(Such a neighbour makes the backward scans of `field_term_mv_left` and
`field_term_delete` absorb the `x` into a function-name run, because
`islower` is true of the free-variable character too.) -/
def xSep (a b : ℕ) : Prop := a = CHAR_X → isLowerB b = false ∧ b ≠ CHAR_LP

instance (a b : ℕ) : Decidable (xSep a b) :=
  inferInstanceAs (Decidable (_ → _))

/-- No free-variable character in the buffer is directly followed by a
lowercase letter or an opening parenthesis. -/
def NoXUnit (buf : List ℕ) : Prop := buf.Chain' xSep

/-- Executable check for `NoXUnit`. -/
def noXUnitB : List ℕ → Bool
  | [] => true
  | [_] => true
  | a :: b :: r => decide (xSep a b) && noXUnitB (b :: r)

theorem noXUnit_iff : ∀ l, NoXUnit l ↔ noXUnitB l = true
  | [] => by simp [NoXUnit, noXUnitB]
  | [a] => by simp [NoXUnit, noXUnitB]
  | a :: b :: r => by
    rw [NoXUnit, List.chain'_cons, noXUnitB, Bool.and_eq_true,
      decide_eq_true_iff]
    exact and_congr Iff.rfl (noXUnit_iff (b :: r))

instance (buf : List ℕ) : Decidable (NoXUnit buf) :=
  decidable_of_iff _ (noXUnit_iff buf).symm

/-- `"1+1+...+1"` with 16 ones: 31 tokens. -/
def c7ShortExpr : List ℕ := 49 :: (List.replicate 15 [43, 49]).flatten

/-- `"-1+1+...+1"`: the same expression with a leading unary minus, whose
32nd token hits the capacity check. -/
def c7LongExpr : List ℕ := 45 :: c7ShortExpr

/-- Expected token stream of `c7ShortExpr`. -/
def c7Types : List ℕ :=
  [1, 1, 13, 1, 13, 1, 13, 1, 13, 1, 13, 1, 13, 1, 13, 1, 13, 1, 13, 1, 13,
   1, 13, 1, 13, 1, 13, 1, 13, 1, 13]

/-! # Theorems -/

/-! ## C1: treatment of unary tokens in the shunting-yard pass -/

/-- Claim C1 (counterexample): compiling `"-sin(x)"` does **not** keep the
unary minus on the operator stack while the `sin` token is processed — the
unary minus is emitted into the token stream first (the compiled stream is
`[TT_UNARY_MINUS, TT_X, TT_SIN]`, with the unary minus ahead of its
operand), and evaluating that stream consequently underflows and fails
with a Syntax error instead of computing `-sin(x)`. -/
theorem c1_counterexample :
    calc_prepare [45, 115, 105, 110, 40, 120, 41] =
      .ok ([TT_UNARY_MINUS, TT_X, TT_SIN], []) ∧
    calc_solve [TT_UNARY_MINUS, TT_X, TT_SIN] [] 0 = .error ERROR_SYNTAX := by
  constructor
  · rfl
  · simp [calc_solve, solveGo, TT_UNARY_MINUS, TT_NUMBER, TT_X, TT_ADD,
      ERROR_SYNTAX]

/-- Claim C1 (amended): unary function tokens and unary negation go through
the same pop-and-emit loop as every other operator token, with rank 0.
Operators of strictly greater rank (all binary operators) and
left-parenthesis markers on top of the stack are left in place, but a
rank-0 unary operator on top of the stack **is** popped and emitted before
the new unary token is pushed. -/
theorem c1_theorem (t : ℕ)
    (ht : t = TT_UNARY_MINUS ∨ t = TT_LOG ∨ t = TT_SIN ∨ t = TT_COS ∨
      t = TT_TAN ∨ t = TT_ASIN ∨ t = TT_ACOS ∨ t = TT_ATAN) :
    get_precedence t = 0 ∧
    (∀ u s toks, get_precedence u > 0 ∨ u = TT_LP →
      popLower (get_precedence t) (u :: s) toks = .ok (u :: s, toks)) ∧
    (∀ u s toks, get_precedence u = 0 → u ≠ TT_LP →
      toks.length < TOKEN_LIST_SIZE - 1 →
      popLower (get_precedence t) (u :: s) toks =
        popLower (get_precedence t) s (toks ++ [u])) := by
  have hprec : get_precedence t = 0 := by
    rcases ht with h | h | h | h | h | h | h | h <;> subst h <;> decide
  refine ⟨hprec, ?_, ?_⟩
  · intro u s toks hu
    rw [popLower, if_pos]
    rcases hu with hu | hu
    · exact Or.inl (hprec ▸ hu)
    · exact Or.inr hu
  · intro u s toks hu hlp hlen
    rw [popLower, if_neg, if_neg]
    · exact Nat.not_le.mpr hlen
    · rw [hprec, hu]
      simp [hlp]

/-- Witness for `c1_theorem`: instantiated at the `sin` token, with a
binary `+` on the stack (kept) and with a unary minus on the stack
(popped and emitted). -/
theorem c1_witness :
    popLower (get_precedence TT_SIN) [TT_ADD] [] = .ok ([TT_ADD], []) ∧
    popLower (get_precedence TT_SIN) [TT_UNARY_MINUS] [] =
      popLower (get_precedence TT_SIN) [] [TT_UNARY_MINUS] := by
  constructor
  · exact (c1_theorem TT_SIN (by decide)).2.1 TT_ADD [] [] (by decide)
  · exact (c1_theorem TT_SIN (by decide)).2.2 TT_UNARY_MINUS [] [] (by decide)
      (by decide) (by decide)

/-! ## C3: left-associative power -/

/-- Claim C3: compiling and evaluating `"2^3^2"` yields 64 (the power
operator is left-associative: the compiled stream is
`[2, 3, ^, 2, ^] = (2^3)^2`), not 512. -/
theorem c3_theorem :
    calc_prepare [50, 94, 51, 94, 50] =
      .ok ([TT_NUMBER, TT_NUMBER, TT_POW, TT_NUMBER, TT_POW], [2, 3, 2]) ∧
    compileSolve [50, 94, 51, 94, 50] 0 = .ok 64 ∧ (64 : ℝ) ≠ 512 := by
  have hprep : calc_prepare [50, 94, 51, 94, 50] =
      .ok ([1, 1, 17, 1, 17], [2, 3, 2]) := by
    have h : calc_prepare [50, 94, 51, 94, 50] =
        .ok ([1, 1, 17, 1, 17], [numValue [50], numValue [51], numValue [50]]) := rfl
    rw [h]; norm_num [numValue, numInt, numFrac, CHAR_DP]
  have h1 : Real.rpow (2 : ℝ) (3 : ℝ) = 8 := by
    have h : Real.rpow (2 : ℝ) (3 : ℝ) = (2 : ℝ) ^ ((3 : ℕ) : ℝ) := by norm_num
    rw [h, Real.rpow_natCast]; norm_num
  have h2 : Real.rpow (8 : ℝ) (2 : ℝ) = 64 := by
    have h : Real.rpow (8 : ℝ) (2 : ℝ) = (8 : ℝ) ^ ((2 : ℕ) : ℝ) := by norm_num
    rw [h, Real.rpow_natCast]; norm_num
  refine ⟨hprep, ?_, by norm_num⟩
  simp only [compileSolve, hprep, calc_solve]
  norm_num [solveGo, opResult, TT_NUMBER, TT_X, TT_ADD, TT_UNARY_MINUS, TT_SUB,
    TT_MUL, TT_DIV, TT_LOG, TT_SIN, TT_COS, TT_TAN, TT_ASIN, TT_ACOS, TT_ATAN,
    TT_POW, NUMBER_STACK_SIZE, h1, h2]

/-! ## C7: the fixed-capacity boundary of the compiler -/

set_option maxRecDepth 4000

/-- Claim C7: compilation fails with `ERROR_NOMEM` exactly when the 32nd
token would be stored: the 32-token expression `"-1+1+...+1"` fails, while
the same expression one token shorter compiles to a 31-entry stream; the
operator stack behaves the same way (32 nested `(` fail, 31 succeed). -/
theorem c7_theorem :
    c7LongExpr = 45 :: c7ShortExpr ∧
    calc_prepare c7LongExpr = .error ERROR_NOMEM ∧
    calc_prepare c7ShortExpr = .ok (c7Types, List.replicate 16 1) ∧
    c7Types.length = TOKEN_LIST_SIZE - 1 ∧
    calc_prepare (List.replicate 32 CHAR_LP) = .error ERROR_NOMEM ∧
    calc_prepare (List.replicate 31 CHAR_LP) = .ok (List.replicate 31 TT_LP, []) := by
  refine ⟨rfl, rfl, ?_, rfl, rfl, rfl⟩
  have h : calc_prepare c7ShortExpr =
      .ok (c7Types, List.replicate 16 (numValue [49])) := rfl
  rw [h]
  norm_num [numValue, numInt, numFrac, CHAR_DP]

/-! ## C9: evaluation of an x-free stream is independent of the
substitution value -/

/-- Core of C9: `solveGo` never reads `x` except at a `TT_X` token. -/
theorem solveGo_indep (x1 x2 : ℝ) :
    ∀ ts nums stack, TT_X ∉ ts →
      solveGo x1 ts nums stack = solveGo x2 ts nums stack := by
  intro ts
  induction ts with
  | nil => intro nums stack _; rfl
  | cons t ts ih =>
    intro nums stack h
    have ht : t ≠ TT_X := fun hh => h (hh ▸ List.mem_cons_self _ _)
    have hts : TT_X ∉ ts := fun hh => h (List.mem_cons_of_mem _ hh)
    by_cases h1 : t = TT_NUMBER
    · simp only [solveGo, h1, if_pos, TT_NUMBER]
      by_cases hlen : stack.length ≥ NUMBER_STACK_SIZE - 1 <;>
        simp [hlen, ih _ _ hts]
    · by_cases h2 : t < TT_ADD
      · simp only [solveGo, h1, ht, if_neg, if_pos, h2, ite_false]
        cases stack with
        | nil => rfl
        | cons l s =>
          rcases hop : opResult t l 0 with e | o
          · simp [hop]
          · rcases o with _ | v
            · simp [hop, ih _ _ hts]
            · by_cases hlen : s.length ≥ NUMBER_STACK_SIZE - 1 <;>
                simp [hop, hlen, ih _ _ hts]
      · simp only [solveGo, h1, ht, h2, if_neg, ite_false]
        cases stack with
        | nil => rfl
        | cons r s0 =>
          cases s0 with
          | nil => rfl
          | cons l s =>
            rcases hop : opResult t l r with e | o
            · simp [hop]
            · rcases o with _ | v
              · simp [hop, ih _ _ hts]
              · by_cases hlen : s.length ≥ NUMBER_STACK_SIZE - 1 <;>
                  simp [hop, hlen, ih _ _ hts]

/-- Claim C9: for every successfully compiled token stream containing no
free-variable token, evaluation returns the same outcome (same error code,
same value) for every substitution value. -/
theorem c9_theorem (term : List ℕ) (ts : List ℕ) (nums : List ℚ)
    (hprep : calc_prepare term = .ok (ts, nums)) (hx : TT_X ∉ ts)
    (x1 x2 : ℝ) : calc_solve ts nums x1 = calc_solve ts nums x2 :=
  solveGo_indep x1 x2 ts nums [] hx

/-- Witness for `c9_theorem`: the compiled stream of `"1"` contains no
free-variable token, and evaluating it at 0 and at 1 agrees. -/
theorem c9_witness :
    calc_solve [TT_NUMBER] [1] 0 = calc_solve [TT_NUMBER] [1] 1 :=
  c9_theorem [49] [TT_NUMBER] [1]
    (by
      have h : calc_prepare [49] = .ok ([TT_NUMBER], [numValue [49]]) := rfl
      rw [h]; norm_num [numValue, numInt, numFrac, CHAR_DP])
    (by decide) 0 1

/-! ## Helper lemmas about lowercase runs and well-formed buffers -/

theorem takeWhile_append_all {p : ℕ → Bool} {l1 l2 : List ℕ}
    (h : ∀ c ∈ l1, p c = true) :
    (l1 ++ l2).takeWhile p = l1 ++ l2.takeWhile p := by
  induction l1 with
  | nil => simp
  | cons a l ih =>
    have ha : p a = true := h a (List.mem_cons_self _ _)
    simp [List.takeWhile_cons, ha, ih fun c hc => h c (List.mem_cons_of_mem _ hc)]

theorem trailLower_le_length (l : List ℕ) : trailLower l ≤ l.length := by
  have := (List.takeWhile_sublist (l := l.reverse) isLowerB).length_le
  simpa [trailLower] using this

theorem trailLower_append_lower {l1 l2 : List ℕ}
    (h : ∀ c ∈ l2, isLowerB c = true) :
    trailLower (l1 ++ l2) = trailLower l1 + l2.length := by
  have hrev : ∀ c ∈ l2.reverse, isLowerB c = true := by
    intro c hc; exact h c (List.mem_reverse.mp hc)
  simp [trailLower, List.reverse_append, takeWhile_append_all hrev,
    Nat.add_comm]

theorem trailLower_concat_notlower {l : List ℕ} {c : ℕ}
    (h : isLowerB c = false) : trailLower (l ++ [c]) = 0 := by
  simp [trailLower, List.reverse_append, List.takeWhile_cons, h]

theorem wf_append {a b : List ℕ} (ha : WF a) (hb : WF b) : WF (a ++ b) := by
  induction ha with
  | nil => simpa using hb
  | chr hc _ ih => exact WF.chr hc ih
  | fn hn _ ih =>
    rw [List.append_assoc, List.cons_append]
    exact WF.fn hn ih

/-- A well-formed buffer is empty or ends with a single-character unit or
with a whole function-name unit. -/
theorem wf_right_decomp {l : List ℕ} (h : WF l) :
    l = [] ∨ (∃ l2 c, CharOK c ∧ WF l2 ∧ l = l2 ++ [c]) ∨
      (∃ l2 nm, NameOK nm ∧ WF l2 ∧ l = l2 ++ (nm ++ [CHAR_LP])) := by
  induction h with
  | nil => exact Or.inl rfl
  | @chr c rest hc _ ih =>
    rcases ih with h0 | ⟨l2, d, hd, hw, he⟩ | ⟨l2, nm, hn, hw, he⟩
    · subst h0
      exact Or.inr (Or.inl ⟨[], c, hc, WF.nil, rfl⟩)
    · subst he
      exact Or.inr (Or.inl ⟨c :: l2, d, hd, WF.chr hc hw, rfl⟩)
    · subst he
      exact Or.inr (Or.inr ⟨c :: l2, nm, hn, WF.chr hc hw, rfl⟩)
  | @fn nm rest hn _ ih =>
    rcases ih with h0 | ⟨l2, d, hd, hw, he⟩ | ⟨l2, nm2, hn2, hw, he⟩
    · subst h0
      exact Or.inr (Or.inr ⟨[], nm, hn, WF.nil, by simp⟩)
    · subst he
      refine Or.inr (Or.inl ⟨nm ++ CHAR_LP :: l2, d, hd, WF.fn hn hw, by simp⟩)
    · subst he
      refine Or.inr (Or.inr ⟨nm ++ CHAR_LP :: l2, nm2, hn2, WF.fn hn hw, by simp⟩)

/-- Removing the maximal trailing lowercase run of a well-formed buffer
leaves a well-formed buffer, and the removed run consists of free-variable
characters only. -/
theorem wf_strip : ∀ n l, l.length ≤ n → WF l →
    WF (l.take (l.length - trailLower l)) ∧
      ∀ c ∈ l.drop (l.length - trailLower l), c = CHAR_X := by
  intro n
  induction n with
  | zero =>
    intro l hl _
    have : l = [] := List.eq_nil_of_length_eq_zero (Nat.le_zero.mp hl)
    subst this
    exact ⟨WF.nil, by simp⟩
  | succ n ih =>
    intro l hl hw
    rcases wf_right_decomp hw with h0 | ⟨l2, c, hc, hw2, he⟩ | ⟨l2, nm, hn, hw2, he⟩
    · subst h0; exact ⟨WF.nil, by simp⟩
    · subst he
      rcases hc with hc | hc
      · -- last unit is a non-letter character: no trailing run
        rw [trailLower_concat_notlower hc]
        refine ⟨?_, ?_⟩
        · simp only [Nat.sub_zero, List.take_length]
          exact hw
        · simp only [Nat.sub_zero, List.drop_length]
          intro d hd
          simp at hd
      · -- last unit is the free-variable character
        subst hc
        have hxl : ∀ d ∈ [CHAR_X], isLowerB d = true := by decide
        have ht : trailLower (l2 ++ [CHAR_X]) = trailLower l2 + 1 := by
          simpa using @trailLower_append_lower l2 [CHAR_X] hxl
        have hlen2 : l2.length ≤ n := by
          have := hl; simp at this; omega
        have hk := trailLower_le_length l2
        have harith : (l2 ++ [CHAR_X]).length - trailLower (l2 ++ [CHAR_X]) =
            l2.length - trailLower l2 := by simp [ht]
        obtain ⟨ih1, ih2⟩ := ih l2 hlen2 hw2
        constructor
        · rw [harith, List.take_append_of_le_length (by omega)]
          exact ih1
        · rw [harith, List.drop_append_of_le_length (by omega)]
          intro d hd
          rcases List.mem_append.mp hd with hd | hd
          · exact ih2 d hd
          · simpa using hd
    · subst he
      have ht : trailLower (l2 ++ (nm ++ [CHAR_LP])) = 0 := by
        rw [← List.append_assoc]
        exact trailLower_concat_notlower (by decide)
      rw [ht]
      refine ⟨?_, ?_⟩
      · simp only [Nat.sub_zero, List.take_length]
        exact hw
      · simp only [Nat.sub_zero, List.drop_length]
        intro d hd
        simp at hd

/-- A run of free-variable characters followed by `(` is well-formed. -/
theorem wf_xrun_lp {r : List ℕ} (h : ∀ c ∈ r, c = CHAR_X) :
    WF (r ++ [CHAR_LP]) := by
  induction r with
  | nil => exact WF.chr (by decide) WF.nil
  | cons a r ih =>
    have ha : a = CHAR_X := h a (List.mem_cons_self _ _)
    subst ha
    exact WF.chr (Or.inr rfl) (ih fun c hc => h c (List.mem_cons_of_mem _ hc))

/-- A run of free-variable characters followed by a function-name unit is
well-formed. -/
theorem wf_xrun_fn {r nm : List ℕ} (h : ∀ c ∈ r, c = CHAR_X)
    (hn : NameOK nm) : WF (r ++ (nm ++ [CHAR_LP])) := by
  induction r with
  | nil =>
    simpa using @WF.fn nm [] hn WF.nil
  | cons a r ih =>
    have ha : a = CHAR_X := h a (List.mem_cons_self _ _)
    subst ha
    exact WF.chr (Or.inr rfl) (ih fun c hc => h c (List.mem_cons_of_mem _ hc))

/-- Core lemma for unit deletion and unit-skipping cursor moves: a
well-formed buffer ending in `(` splits, at the start of the lowercase run
preceding that `(`, into a well-formed prefix and a well-formed
run-plus-parenthesis suffix. -/
theorem wf_lp_strip {l : List ℕ} (h : WF (l ++ [CHAR_LP])) :
    WF (l.take (l.length - trailLower l)) ∧
      WF (l.drop (l.length - trailLower l) ++ [CHAR_LP]) := by
  rcases wf_right_decomp h with h0 | ⟨l2, c, hc, hw2, he⟩ | ⟨l2, nm, hn, hw2, he⟩
  · simp at h0
  · obtain ⟨he2, hce⟩ := List.append_inj' he rfl
    have hcc : c = CHAR_LP := by simpa using hce.symm
    subst hcc
    subst he2
    obtain ⟨h1, h2⟩ := wf_strip l.length l le_rfl hw2
    exact ⟨h1, wf_xrun_lp h2⟩
  · rw [← List.append_assoc] at he
    obtain ⟨he2, -⟩ := List.append_inj' he rfl
    subst he2
    have hnm : ∀ c ∈ nm, isLowerB c = true := fun c hc => (hn.2 c hc).1
    have ht : trailLower (l2 ++ nm) = trailLower l2 + nm.length :=
      trailLower_append_lower hnm
    have hk := trailLower_le_length l2
    have harith : (l2 ++ nm).length - trailLower (l2 ++ nm) =
        l2.length - trailLower l2 := by simp [ht]; omega
    obtain ⟨h1, h2⟩ := wf_strip l2.length l2 le_rfl hw2
    constructor
    · rw [harith, List.take_append_of_le_length (by omega)]
      exact h1
    · rw [harith, List.drop_append_of_le_length (by omega), List.append_assoc]
      exact wf_xrun_fn h2 hn

/-! ## Bridging lemmas: reading a split buffer -/

theorem pos_toNat {f : Field} {pre post : List ℕ} (hbuf : f.buf = pre ++ post)
    (hpos : (pre.length : ℤ) = f.pos) : f.pos.toNat = pre.length := by
  omega

theorem buf_take_pre {f : Field} {pre post : List ℕ}
    (hbuf : f.buf = pre ++ post) (hpos : (pre.length : ℤ) = f.pos) :
    f.buf.take f.pos.toNat = pre := by
  rw [hbuf, pos_toNat hbuf hpos, List.take_left]

theorem buf_drop_post {f : Field} {pre post : List ℕ}
    (hbuf : f.buf = pre ++ post) (hpos : (pre.length : ℤ) = f.pos) :
    f.buf.drop f.pos.toNat = post := by
  rw [hbuf, pos_toNat hbuf hpos, List.drop_left]

theorem buf_take_le {f : Field} {pre post : List ℕ}
    (hbuf : f.buf = pre ++ post) (m : ℕ) (hm : m ≤ pre.length) :
    f.buf.take m = pre.take m := by
  rw [hbuf, List.take_append_of_le_length hm]

theorem charAt_last {f : Field} {pre post l2 : List ℕ} {c : ℕ}
    (hbuf : f.buf = pre ++ post) (hpos : (pre.length : ℤ) = f.pos)
    (hpre : pre = l2 ++ [c]) : charAt f (f.pos - 1) = c := by
  have hlen : pre.length = l2.length + 1 := by simp [hpre]
  have h0 : (0 : ℤ) ≤ f.pos - 1 := by omega
  have hidx : (f.pos - 1).toNat = l2.length := by omega
  rw [charAt, if_pos h0, hidx, hbuf, hpre, List.append_assoc]
  rw [List.getD_append_right _ _ _ _ le_rfl]
  simp

theorem charAt_post_head {f : Field} {pre post rest : List ℕ} {c : ℕ}
    (hbuf : f.buf = pre ++ post) (hpos : (pre.length : ℤ) = f.pos)
    (hpost : post = c :: rest) : charAt f f.pos = c := by
  have h0 : (0 : ℤ) ≤ f.pos := by omega
  rw [charAt, if_pos h0, pos_toNat hbuf hpos, hbuf,
    List.getD_append_right _ _ _ _ le_rfl]
  simp [hpost]

theorem backRun_pre_lp {f : Field} {pre post l0 : List ℕ}
    (hbuf : f.buf = pre ++ post) (hpos : (pre.length : ℤ) = f.pos)
    (hpre : pre = l0 ++ [CHAR_LP]) :
    backRun f.buf (f.pos - 2) = trailLower l0 := by
  have hlen : pre.length = l0.length + 1 := by simp [hpre]
  rcases Nat.eq_zero_or_pos l0.length with h0 | h0
  · have hl0 : l0 = [] := List.eq_nil_of_length_eq_zero h0
    subst hl0
    have : f.pos - 2 < 0 := by omega
    rw [backRun, if_neg (by omega)]
    simp [trailLower]
  · have hi : (0 : ℤ) ≤ f.pos - 2 := by omega
    have hidx : (f.pos - 2).toNat + 1 = l0.length := by omega
    rw [backRun, if_pos hi, hidx,
      buf_take_le hbuf l0.length (by omega),
      hpre, List.take_append_of_le_length le_rfl, List.take_length]

theorem fwdRun_post {f : Field} {pre post : List ℕ}
    (hbuf : f.buf = pre ++ post) (hpos : (pre.length : ℤ) = f.pos) :
    fwdRun f.buf f.pos.toNat = (post.takeWhile isLowerB).length := by
  rw [fwdRun, buf_drop_post hbuf hpos]

/-- Extract the adjacency relation of two neighbouring bytes from a
`Chain'` over the whole buffer. -/
theorem chain_adj {R : ℕ → ℕ → Prop} :
    ∀ {A B : List ℕ} {d e : ℕ}, List.Chain' R (A ++ d :: e :: B) → R d e := by
  intro A
  induction A with
  | nil => intro B d e h; exact (List.chain'_cons.mp h).1
  | cons a A ih => intro B d e h; exact ih (h.tail)

/-- In a buffer satisfying the adjacency constraint, an all-lowercase run
directly followed by an opening parenthesis contains no free-variable
character. -/
theorem chain_lower_no_x :
    ∀ s : List ℕ, List.Chain' xSep (s ++ [CHAR_LP]) →
      (∀ c ∈ s, isLowerB c = true) → ∀ c ∈ s, c ≠ CHAR_X := by
  intro s
  induction s with
  | nil => simp
  | cons a s ih =>
    intro hch hlow c hc
    have hch2 : List.Chain' xSep (s ++ [CHAR_LP]) := hch.tail
    rcases List.mem_cons.mp hc with hc | hc
    · subst hc
      intro hx
      cases s with
      | nil =>
        have hr : xSep c CHAR_LP := chain_adj (A := []) (B := []) hch
        exact (hr hx).2 rfl
      | cons b s2 =>
        have hr : xSep c b := chain_adj (A := []) hch
        have hb : isLowerB b = true := hlow b (by simp)
        rw [(hr hx).1] at hb
        exact Bool.false_ne_true hb
    · exact ih hch2 (fun d hd => hlow d (List.mem_cons_of_mem _ hd)) c hc

/-! ## Behaviour of the Field operations on a split buffer -/

/-- Deleting when the byte before the cursor is a single-character unit
other than `(`: exactly that byte is removed. -/
theorem del_chr_desc {f : Field} {pre post l2 : List ℕ} {c : ℕ}
    (hbuf : f.buf = pre ++ post) (hpos : (pre.length : ℤ) = f.pos)
    (hpre : pre = l2 ++ [c]) (hc : c ≠ CHAR_LP) :
    field_term_delete f = { f with buf := l2 ++ post, pos := (l2.length : ℤ) } := by
  have hlen : pre.length = l2.length + 1 := by simp [hpre]
  have hpc : charAt f (f.pos - 1) = c := charAt_last hbuf hpos hpre
  have hspan : deleteSpan f = 1 := by rw [deleteSpan, hpc, if_neg hc]
  rw [field_term_delete, if_pos (by omega), hspan]
  have hidx : (f.pos - 1).toNat = l2.length := by omega
  have htake : f.buf.take (f.pos - 1).toNat = l2 := by
    rw [hidx, buf_take_le hbuf l2.length (by omega), hpre,
      List.take_append_of_le_length le_rfl, List.take_length]
  have hdrop := buf_drop_post hbuf hpos
  simp only [htake, hdrop]
  congr 1
  omega

/-- Deleting when the byte before the cursor is `(`: the parenthesis and
the whole lowercase run before it are removed. -/
theorem del_lp_desc {f : Field} {pre post l0 : List ℕ}
    (hbuf : f.buf = pre ++ post) (hpos : (pre.length : ℤ) = f.pos)
    (hpre : pre = l0 ++ [CHAR_LP]) :
    field_term_delete f =
      { f with buf := l0.take (l0.length - trailLower l0) ++ post,
               pos := ((l0.length - trailLower l0 : ℕ) : ℤ) } := by
  have hlen : pre.length = l0.length + 1 := by simp [hpre]
  have hk := trailLower_le_length l0
  have hpc : charAt f (f.pos - 1) = CHAR_LP := charAt_last hbuf hpos hpre
  have hbr := backRun_pre_lp hbuf hpos hpre
  have hspan : deleteSpan f = 1 + (trailLower l0 : ℤ) := by
    rw [deleteSpan, hpc, if_pos rfl, hbr]
  rw [field_term_delete, if_pos (by omega), hspan]
  have hidx : (f.pos - (1 + (trailLower l0 : ℤ))).toNat =
      l0.length - trailLower l0 := by omega
  have htake : f.buf.take (l0.length - trailLower l0) =
      l0.take (l0.length - trailLower l0) := by
    rw [buf_take_le hbuf _ (by omega), hpre,
      List.take_append_of_le_length (by omega)]
  have hdrop := buf_drop_post hbuf hpos
  simp only [hidx, htake, hdrop]
  congr 1
  omega

/-! ## Good-state preservation -/

theorem good_inv {f : Field} (h : Good f) :
    0 ≤ f.pos ∧ f.pos ≤ flen f ∧ flen f < f.maxLen := by
  obtain ⟨pre, post, hbuf, hpos, -, -, hcap⟩ := h
  refine ⟨by omega, ?_, hcap⟩
  have : flen f = ((pre.length + post.length : ℕ) : ℤ) := by
    simp [flen, hbuf]
  omega

theorem good_ins_chr {f : Field} {c : ℕ} (hc : CharOK c) (h : Good f) :
    Good (field_ins_chr f c) := by
  obtain ⟨pre, post, hbuf, hpos, hwpre, hwpost, hcap⟩ := h
  have hflen : flen f = ((pre.length + post.length : ℕ) : ℤ) := by
    simp [flen, hbuf]
  by_cases hguard : flen f + 1 < f.maxLen
  case neg =>
    rw [field_ins_chr, if_neg hguard]
    exact ⟨pre, post, hbuf, hpos, hwpre, hwpost, hcap⟩
  case pos =>
  rw [field_ins_chr, if_pos hguard, buf_take_pre hbuf hpos,
    buf_drop_post hbuf hpos]
  refine ⟨pre ++ [c], post, by simp, ?_, wf_append hwpre (WF.chr hc WF.nil),
    hwpost, ?_⟩
  · simp only [List.length_append, List.length_cons, List.length_nil]
    omega
  · simp only [flen, List.length_append, List.length_cons] at *
    omega

theorem good_ins_str {f : Field} {nm : List ℕ} (hn : NameOK nm) (h : Good f) :
    Good (field_ins_str_P f nm) := by
  obtain ⟨pre, post, hbuf, hpos, hwpre, hwpost, hcap⟩ := h
  have hflen : flen f = ((pre.length + post.length : ℕ) : ℤ) := by
    simp [flen, hbuf]
  by_cases hguard : flen f + nm.length + 1 < f.maxLen
  case neg =>
    rw [field_ins_str_P, if_neg hguard]
    exact ⟨pre, post, hbuf, hpos, hwpre, hwpost, hcap⟩
  case pos =>
  rw [field_ins_str_P, if_pos hguard, buf_take_pre hbuf hpos,
    buf_drop_post hbuf hpos]
  refine ⟨pre ++ (nm ++ [CHAR_LP]), post, by simp, ?_,
    wf_append hwpre (by simpa using @WF.fn nm [] hn WF.nil), hwpost, ?_⟩
  · simp only [List.length_append, List.length_cons, List.length_nil]
    omega
  · simp only [flen, List.length_append, List.length_cons, List.length_nil] at *
    omega

theorem good_clear {f : Field} (h : Good f) : Good (field_clear f) := by
  obtain ⟨pre, post, hbuf, hpos, hwpre, hwpost, hcap⟩ := h
  have hflen : flen f = ((pre.length + post.length : ℕ) : ℤ) := by
    simp [flen, hbuf]
  refine ⟨[], [], rfl, rfl, WF.nil, WF.nil, ?_⟩
  simp only [field_clear, flen, List.length_nil]
  omega

theorem good_del {f : Field} (h : Good f) : Good (field_term_delete f) := by
  obtain ⟨pre, post, hbuf, hpos, hwpre, hwpost, hcap⟩ := h
  by_cases hp : 0 < f.pos
  case neg =>
    rw [field_term_delete, if_neg hp]
    exact ⟨pre, post, hbuf, hpos, hwpre, hwpost, hcap⟩
  case pos =>
  have hflen : flen f = ((pre.length + post.length : ℕ) : ℤ) := by
    simp [flen, hbuf]
  rcases wf_right_decomp hwpre with h0 | ⟨l2, c, hcc, hw2, he⟩ | ⟨l2, nm, hn, hw2, he⟩
  · subst h0; simp at hpos; omega
  · by_cases hlp : c = CHAR_LP
    · subst hlp
      rw [del_lp_desc hbuf hpos he]
      have hwlp : WF (l2 ++ [CHAR_LP]) := he ▸ hwpre
      obtain ⟨hw1, -⟩ := wf_lp_strip hwlp
      have hk := trailLower_le_length l2
      have hplen : pre.length = l2.length + 1 := by
        simp only [he, List.length_append, List.length_cons, List.length_nil]
      refine ⟨l2.take (l2.length - trailLower l2), post, rfl, ?_, hw1, hwpost, ?_⟩
      · simp only [List.length_take]
        omega
      · simp only [flen, List.length_append, List.length_take]
        omega
    · rw [del_chr_desc hbuf hpos he hlp]
      have hplen : pre.length = l2.length + 1 := by
        simp only [he, List.length_append, List.length_cons, List.length_nil]
      refine ⟨l2, post, rfl, rfl, hw2, hwpost, ?_⟩
      simp only [flen, List.length_append]
      omega
  · have he2 : pre = (l2 ++ nm) ++ [CHAR_LP] := by simp [he]
    rw [del_lp_desc hbuf hpos he2]
    have hwlp : WF ((l2 ++ nm) ++ [CHAR_LP]) := he2 ▸ hwpre
    obtain ⟨hw1, -⟩ := wf_lp_strip hwlp
    have hk := trailLower_le_length (l2 ++ nm)
    have hplen : pre.length = (l2 ++ nm).length + 1 := by
      simp only [he2, List.length_append, List.length_cons, List.length_nil]
    refine ⟨(l2 ++ nm).take ((l2 ++ nm).length - trailLower (l2 ++ nm)), post,
      rfl, ?_, hw1, hwpost, ?_⟩
    · simp only [List.length_take]
      omega
    · simp only [flen, List.length_append, List.length_take] at *
      omega

theorem good_mvl {f : Field} (h : Good f) : Good (field_term_mv_left f) := by
  obtain ⟨pre, post, hbuf, hpos, hwpre, hwpost, hcap⟩ := h
  by_cases hp : 0 < f.pos
  case neg =>
    have hpre0 : pre = [] := by
      have : pre.length = 0 := by omega
      exact List.eq_nil_of_length_eq_zero this
    subst hpre0
    rw [field_term_mv_left, if_neg hp]
    refine ⟨post, [], by simpa using hbuf, by simp [flen, hbuf],
      hwpost, WF.nil, by simpa [flen] using hcap⟩
  case pos =>
  have hflen : flen f = ((pre.length + post.length : ℕ) : ℤ) := by
    simp [flen, hbuf]
  rcases wf_right_decomp hwpre with h0 | ⟨l2, c, hcc, hw2, he⟩ | ⟨l2, nm, hn, hw2, he⟩
  · subst h0; simp at hpos; omega
  · by_cases hlp : c = CHAR_LP
    · subst hlp
      have hplen : pre.length = l2.length + 1 := by
        simp only [he, List.length_append, List.length_cons, List.length_nil]
      have hk := trailLower_le_length l2
      rw [field_term_mv_left, if_pos hp, if_pos (charAt_last hbuf hpos he),
        backRun_pre_lp hbuf hpos he]
      have hwlp : WF (l2 ++ [CHAR_LP]) := he ▸ hwpre
      obtain ⟨hw1, hw2b⟩ := wf_lp_strip hwlp
      refine ⟨l2.take (l2.length - trailLower l2),
        (l2.drop (l2.length - trailLower l2) ++ [CHAR_LP]) ++ post, ?_, ?_,
        hw1, wf_append hw2b hwpost, ?_⟩
      · simp only [hbuf, he]
        rw [← List.append_assoc, ← List.append_assoc, List.take_append_drop]
      · simp only [List.length_take]
        omega
      · simpa [flen] using hcap
    · have hplen : pre.length = l2.length + 1 := by
        simp only [he, List.length_append, List.length_cons, List.length_nil]
      rw [field_term_mv_left, if_pos hp, if_neg]
      · refine ⟨l2, c :: post, by simp [hbuf, he], by simp only []; omega,
          hw2, WF.chr hcc hwpost, by simpa [flen] using hcap⟩
      · rw [charAt_last hbuf hpos he]
        exact hlp
  · have he2 : pre = (l2 ++ nm) ++ [CHAR_LP] := by simp [he]
    have hplen : pre.length = (l2 ++ nm).length + 1 := by
      simp only [he2, List.length_append, List.length_cons, List.length_nil]
    have hk := trailLower_le_length (l2 ++ nm)
    rw [field_term_mv_left, if_pos hp, if_pos (charAt_last hbuf hpos he2),
      backRun_pre_lp hbuf hpos he2]
    have hwlp : WF ((l2 ++ nm) ++ [CHAR_LP]) := he2 ▸ hwpre
    obtain ⟨hw1, hw2b⟩ := wf_lp_strip hwlp
    refine ⟨(l2 ++ nm).take ((l2 ++ nm).length - trailLower (l2 ++ nm)),
      ((l2 ++ nm).drop ((l2 ++ nm).length - trailLower (l2 ++ nm)) ++ [CHAR_LP])
        ++ post, ?_, ?_, hw1, wf_append hw2b hwpost, ?_⟩
    · simp only [hbuf, he2]
      rw [← List.append_assoc, ← List.append_assoc, List.take_append_drop]
    · simp only [List.length_take, List.length_append] at *
      omega
    · simpa [flen] using hcap

theorem good_mvr {f : Field} (h : Good f) : Good (field_term_mv_right f) := by
  obtain ⟨pre, post, hbuf, hpos, hwpre, hwpost, hcap⟩ := h
  have hflen : flen f = ((pre.length + post.length : ℕ) : ℤ) := by
    simp [flen, hbuf]
  by_cases hp : f.pos < flen f
  case neg =>
    rw [field_term_mv_right, if_neg hp]
    exact ⟨[], pre ++ post, by simp [hbuf], by simp, WF.nil,
      wf_append hwpre hwpost, by simpa [flen] using hcap⟩
  case pos =>
  cases hwpost with
  | nil =>
    simp only [flen, hbuf, List.length_append, List.length_nil] at hp
    omega
  | @chr c rest hcc hwrest =>
    have hca : charAt f f.pos = c := charAt_post_head hbuf hpos rfl
    by_cases hx : c = CHAR_X
    · rw [field_term_mv_right, if_pos hp, if_pos (by rw [hca]; exact hx)]
      refine ⟨pre ++ [c], rest, by simp [hbuf], ?_,
        wf_append hwpre (WF.chr hcc WF.nil), hwrest,
        by simpa [flen] using hcap⟩
      simp only [List.length_append, List.length_cons, List.length_nil]
      omega
    · have hlow : isLowerB c = false := by
        rcases hcc with h | h
        · exact h
        · exact absurd h hx
      rw [field_term_mv_right, if_pos hp, if_neg (by rw [hca]; exact hx)]
      have hfr : fwdRun f.buf f.pos.toNat = 0 := by
        rw [fwdRun_post hbuf hpos]
        simp [List.takeWhile_cons, hlow]
      rw [hfr]
      refine ⟨pre ++ [c], rest, by simp [hbuf], ?_,
        wf_append hwpre (WF.chr hcc WF.nil), hwrest,
        by simpa [flen] using hcap⟩
      simp only [List.length_append, List.length_cons, List.length_nil]
      omega
  | @fn nm rest hn hwrest =>
    have hne := hn.1
    have hprops := hn.2
    obtain ⟨hd, tl, hnm⟩ := List.exists_cons_of_ne_nil hne
    have hca : charAt f f.pos = hd := by
      have hpost2 : nm ++ CHAR_LP :: rest = hd :: (tl ++ CHAR_LP :: rest) := by
        rw [hnm]; simp
      exact charAt_post_head hbuf hpos hpost2
    have hdprop := hprops hd (by rw [hnm]; simp)
    rw [field_term_mv_right, if_pos hp, if_neg (by rw [hca]; exact hdprop.2)]
    have hfr : fwdRun f.buf f.pos.toNat = nm.length := by
      rw [fwdRun_post hbuf hpos,
        takeWhile_append_all (fun c hc => (hprops c hc).1)]
      simp [List.takeWhile_cons, isLowerB, CHAR_LP]
    rw [hfr]
    refine ⟨pre ++ (nm ++ [CHAR_LP]), rest, by simp [hbuf], ?_,
      wf_append hwpre (by simpa using @WF.fn nm [] hn WF.nil), hwrest,
      by simpa [flen] using hcap⟩
    simp only [List.length_append, List.length_cons, List.length_nil]
    omega

/-! ## C5: every Field operation preserves the cursor invariant -/

/-- Every reachable state of the expression Field is a `Good` state. -/
theorem reachable_good {f : Field} (h : Reachable f) : Good f := by
  induction h with
  | init =>
    exact ⟨[], [], rfl, rfl, WF.nil, WF.nil, by decide⟩
  | ins hr hc ih =>
    have hok : ∀ c ∈ termChars, CharOK c := by decide
    exact good_ins_chr (hok _ hc) ih
  | insfn hr hn ih =>
    have hok : ∀ nm ∈ fnNames, NameOK nm := by decide
    exact good_ins_str (hok _ hn) ih
  | del hr ih => exact good_del ih
  | mvl hr ih => exact good_mvl ih
  | mvr hr ih => exact good_mvr ih
  | clr hr ih => exact good_clear ih

/-- Claim C5: every Field operation reachable from the startup state —
single-character insertion, atomic function-name insertion, deletion
(including deletion of a whole function-name unit), cursor movement in
both directions, clear — preserves `0 <= position <= length < capacity`. -/
theorem c5_theorem (f : Field) (h : Reachable f) :
    0 ≤ f.pos ∧ f.pos ≤ flen f ∧ flen f < f.maxLen :=
  good_inv (reachable_good h)

/-- Witness for `c5_theorem`: the state reached by inserting `sin(` and a
digit and deleting once satisfies the invariant. -/
theorem c5_witness :
    0 ≤ (field_term_delete (field_ins_chr (field_ins_str_P
      ⟨[], 0, (TERM_MAX_LEN : ℤ)⟩ [115, 105, 110]) 53)).pos ∧
    (field_term_delete (field_ins_chr (field_ins_str_P
      ⟨[], 0, (TERM_MAX_LEN : ℤ)⟩ [115, 105, 110]) 53)).pos ≤
      flen (field_term_delete (field_ins_chr (field_ins_str_P
        ⟨[], 0, (TERM_MAX_LEN : ℤ)⟩ [115, 105, 110]) 53)) ∧
    flen (field_term_delete (field_ins_chr (field_ins_str_P
      ⟨[], 0, (TERM_MAX_LEN : ℤ)⟩ [115, 105, 110]) 53)) <
      (field_term_delete (field_ins_chr (field_ins_str_P
        ⟨[], 0, (TERM_MAX_LEN : ℤ)⟩ [115, 105, 110]) 53)).maxLen :=
  c5_theorem _ (Reachable.del (Reachable.ins
    (Reachable.insfn Reachable.init (by decide)) (by decide)))

/-! ## C6: the move-left / move-right round trip -/

/-- Claim C6 (counterexample): the buffer `"x("` — reachable by pressing
the free-variable key and then the `(` key — breaks the round trip.  From
position 2, `move_left` treats `x(` as a function-name unit (the
free-variable character satisfies `islower`) and jumps to 0, but
`move_right` special-cases the free-variable character and only steps to
1, not back to 2. -/
theorem c6_counterexample :
    Reachable ⟨[CHAR_X, CHAR_LP], 2, (TERM_MAX_LEN : ℤ)⟩ ∧
    (field_term_mv_right (field_term_mv_left
      ⟨[CHAR_X, CHAR_LP], 2, (TERM_MAX_LEN : ℤ)⟩)).pos = 1 ∧ (1 : ℤ) ≠ 2 := by
  refine ⟨?_, by decide, by decide⟩
  have h : field_ins_chr (field_ins_chr ⟨[], 0, (TERM_MAX_LEN : ℤ)⟩ CHAR_X)
      CHAR_LP = ⟨[CHAR_X, CHAR_LP], 2, (TERM_MAX_LEN : ℤ)⟩ := rfl
  rw [← h]
  exact Reachable.ins (Reachable.ins Reachable.init (by decide)) (by decide)

/-- Claim C6 (amended): for every Good Field state whose buffer contains no
free-variable character directly followed by a lowercase letter or `(`,
invoking `move_left` then `move_right` returns the cursor to its original
position — including position 0, position `length`, and positions adjacent
to a function-name unit, which is skipped symmetrically. -/
theorem c6_theorem (f : Field) (hg : Good f) (hx : NoXUnit f.buf) :
    (field_term_mv_right (field_term_mv_left f)).pos = f.pos := by
  obtain ⟨pre, post, hbuf, hpos, hwpre, hwpost, hcap⟩ := hg
  have hblen : f.buf.length = pre.length + post.length := by
    rw [hbuf]; simp
  by_cases hp : 0 < f.pos
  case neg =>
    rw [field_term_mv_left, if_neg hp, field_term_mv_right]
    dsimp only [flen]
    rw [if_neg (lt_irrefl ((f.buf.length : ℤ)))]
    dsimp only
    omega
  case pos =>
  rcases wf_right_decomp hwpre with h0 | ⟨l2, c, hcc, hw2, he⟩ | ⟨l2, nm, hn, hw2, he⟩
  · subst h0; simp at hpos; omega
  · have hplen : pre.length = l2.length + 1 := by
      simp only [he, List.length_append, List.length_cons, List.length_nil]
    by_cases hlp : c = CHAR_LP
    · -- last unit before the cursor is a bare parenthesis
      subst hlp
      have htl : trailLower l2 = 0 := by
        rcases wf_right_decomp hw2 with h0 | ⟨l3, d, hdd, hw3, he3⟩ |
          ⟨l3, nm2, hn2, hw3, he3⟩
        · subst h0; simp [trailLower]
        · subst he3
          rcases hdd with hdl | hdl
          · exact trailLower_concat_notlower hdl
          · exfalso
            subst hdl
            have heq : f.buf = l3 ++ CHAR_X :: CHAR_LP :: post := by
              rw [hbuf, he]; simp
            have hx2 := hx
            rw [NoXUnit, heq] at hx2
            exact (chain_adj hx2 rfl).2 rfl
        · subst he3
          rw [← List.append_assoc]
          exact trailLower_concat_notlower (by decide)
      rw [field_term_mv_left, if_pos hp, if_pos (charAt_last hbuf hpos he),
        backRun_pre_lp hbuf hpos he, htl]
      have hbuf2 : f.buf = l2 ++ (CHAR_LP :: post) := by rw [hbuf, he]; simp
      rw [field_term_mv_right]
      simp only []
      rw [if_pos (by simp only [flen]; omega)]
      have hca2 : charAt { f with pos := f.pos - 1 - (0 : ℕ) }
          (f.pos - 1 - (0 : ℕ)) = CHAR_LP :=
        charAt_post_head (f := { f with pos := f.pos - 1 - (0 : ℕ) })
          hbuf2 (by simp only []; omega) rfl
      rw [if_neg (by rw [hca2]; decide)]
      have hfr : fwdRun f.buf (f.pos - 1 - (0 : ℕ)).toNat = 0 := by
        rw [fwdRun_post (f := { f with pos := f.pos - 1 - (0 : ℕ) }) hbuf2
          (by simp only []; omega)]
        simp [List.takeWhile_cons, isLowerB, CHAR_LP]
      simp only [] at hfr ⊢
      rw [hfr]
      omega
    · -- last unit before the cursor is a single character other than "("
      rw [field_term_mv_left, if_pos hp,
        if_neg (by rw [charAt_last hbuf hpos he]; exact hlp)]
      have hbuf2 : f.buf = l2 ++ (c :: post) := by rw [hbuf, he]; simp
      rw [field_term_mv_right]
      simp only []
      rw [if_pos (by simp only [flen]; omega)]
      have hca2 : charAt { f with pos := f.pos - 1 } (f.pos - 1) = c :=
        charAt_post_head (f := { f with pos := f.pos - 1 }) hbuf2
          (by simp only []; omega) rfl
      by_cases hcx : c = CHAR_X
      · rw [if_pos (by rw [hca2]; exact hcx)]
        simp only []
        omega
      · have hlow : isLowerB c = false := by
          rcases hcc with h | h
          · exact h
          · exact absurd h hcx
        rw [if_neg (by rw [hca2]; exact hcx)]
        have hfr : fwdRun f.buf (f.pos - 1).toNat = 0 := by
          rw [fwdRun_post (f := { f with pos := f.pos - 1 }) hbuf2
            (by simp only []; omega)]
          simp [List.takeWhile_cons, hlow]
        simp only [] at hfr ⊢
        rw [hfr]
        omega
  · -- last unit before the cursor is a whole function-name unit
    have hne := hn.1
    have hprops := hn.2
    obtain ⟨hd, tl, hnm⟩ := List.exists_cons_of_ne_nil hne
    have he2 : pre = (l2 ++ nm) ++ [CHAR_LP] := by simp [he]
    have hplen : pre.length = l2.length + nm.length + 1 := by
      simp only [he2, List.length_append, List.length_cons, List.length_nil]
    have htl2 : trailLower l2 = 0 := by
      rcases wf_right_decomp hw2 with h0 | ⟨l3, d, hdd, hw3, he3⟩ |
        ⟨l3, nm2, hn2, hw3, he3⟩
      · subst h0; simp [trailLower]
      · subst he3
        rcases hdd with hdl | hdl
        · exact trailLower_concat_notlower hdl
        · exfalso
          subst hdl
          have heq : f.buf = l3 ++ CHAR_X :: hd :: (tl ++ CHAR_LP :: post) := by
            rw [hbuf, he, hnm]; simp
          have hx2 := hx
          rw [NoXUnit, heq] at hx2
          have hhd : isLowerB hd = true := (hprops hd (by rw [hnm]; simp)).1
          have := (chain_adj hx2 rfl).1
          rw [hhd] at this
          exact Bool.false_ne_true this.symm
      · subst he3
        rw [← List.append_assoc]
        exact trailLower_concat_notlower (by decide)
    have htl : trailLower (l2 ++ nm) = nm.length := by
      rw [trailLower_append_lower (fun c hc => (hprops c hc).1), htl2]
      omega
    rw [field_term_mv_left, if_pos hp, if_pos (charAt_last hbuf hpos he2),
      backRun_pre_lp hbuf hpos he2, htl]
    have hbuf2 : f.buf = l2 ++ (nm ++ CHAR_LP :: post) := by rw [hbuf, he]; simp
    have hbuf3 : f.buf = l2 ++ (hd :: (tl ++ CHAR_LP :: post)) := by
      rw [hbuf2, hnm]; simp
    rw [field_term_mv_right]
    simp only []
    rw [if_pos (by simp only [flen]; omega)]
    have hpos2 : ((l2.length : ℕ) : ℤ) = f.pos - 1 - (nm.length : ℕ) := by
      omega
    have hca2 : charAt { f with pos := f.pos - 1 - (nm.length : ℕ) }
        (f.pos - 1 - (nm.length : ℕ)) = hd :=
      charAt_post_head (f := { f with pos := f.pos - 1 - (nm.length : ℕ) })
        hbuf3 (by simp only []; omega) rfl
    rw [if_neg (by rw [hca2]; exact (hprops hd (by rw [hnm]; simp)).2)]
    have hfr : fwdRun f.buf (f.pos - 1 - (nm.length : ℕ)).toNat = nm.length := by
      rw [fwdRun_post (f := { f with pos := f.pos - 1 - (nm.length : ℕ) })
        hbuf2 (by simp only []; omega),
        takeWhile_append_all (fun c hc => (hprops c hc).1)]
      simp [List.takeWhile_cons, isLowerB, CHAR_LP]
    simp only [] at hfr ⊢
    rw [hfr]
    omega

/-- Witness for `c6_theorem`: the buffer `"2sin(" ` with the cursor at its
end (adjacent to the atomic `sin(` unit) round-trips back to position 5. -/
theorem c6_witness :
    (field_term_mv_right (field_term_mv_left
      ⟨[50, 115, 105, 110, 40], 5, (TERM_MAX_LEN : ℤ)⟩)).pos = 5 := by
  have h := c6_theorem ⟨[50, 115, 105, 110, 40], 5, (TERM_MAX_LEN : ℤ)⟩
    ⟨[50] ++ ([115, 105, 110] ++ [CHAR_LP]), [], by decide, by decide,
      wf_append (WF.chr (by decide) WF.nil)
        (@WF.fn [115, 105, 110] [] (by decide) WF.nil),
      WF.nil, by decide⟩
    (by decide)
  simpa using h

/-! ## C10: the free-variable usage counter -/

/-- Every byte in the maximal trailing lowercase run is lowercase. -/
theorem trailing_drop_lower :
    ∀ l : List ℕ, ∀ c ∈ l.drop (l.length - trailLower l), isLowerB c = true := by
  intro l
  induction l using List.reverseRecOn with
  | nil => simp
  | append_singleton l a ih =>
    by_cases ha : isLowerB a = true
    · have ht : trailLower (l ++ [a]) = trailLower l + 1 := by
        simpa using @trailLower_append_lower l [a] (by simpa using ha)
      have hk := trailLower_le_length l
      have harith : (l ++ [a]).length - trailLower (l ++ [a]) =
          l.length - trailLower l := by
        simp only [ht, List.length_append, List.length_cons, List.length_nil]
        omega
      rw [harith, List.drop_append_of_le_length (by omega)]
      intro c hc
      rcases List.mem_append.mp hc with hc | hc
      · exact ih c hc
      · simp at hc; rw [hc]; exact ha
    · have ht : trailLower (l ++ [a]) = 0 :=
        trailLower_concat_notlower (Bool.not_eq_true _ ▸ ha)
      rw [ht]
      simp only [Nat.sub_zero, List.drop_length]
      intro c hc
      simp at hc

/-- Under the adjacency constraint, the trailing lowercase run removed
together with a `(` contains no free-variable character. -/
theorem trailing_no_x {f : Field} {pre post l0 : List ℕ}
    (hbuf : f.buf = pre ++ post) (hpre : pre = l0 ++ [CHAR_LP])
    (hx : NoXUnit f.buf) :
    ∀ c ∈ l0.drop (l0.length - trailLower l0), c ≠ CHAR_X := by
  have hsplit : f.buf = l0.take (l0.length - trailLower l0) ++
      ((l0.drop (l0.length - trailLower l0) ++ [CHAR_LP]) ++ post) := by
    rw [hbuf, hpre]
    rw [← List.append_assoc, ← List.append_assoc, List.take_append_drop]
  have hx2 := hx
  rw [NoXUnit, hsplit] at hx2
  have hch1 := (List.chain'_append.mp hx2).2.1
  have hch2 := (List.chain'_append.mp hch1).1
  exact fun c hc =>
    chain_lower_no_x _ hch2 (fun d hd => trailing_drop_lower l0 d hd) c hc

/-- Claim C10 (counterexample): pressing the free-variable key, then the
`(` key, then delete — the deletion removes the whole `x(` unit (the
free-variable character satisfies `islower`), but the counter is only
decremented when the byte directly before the cursor is the free-variable
character itself.  The resulting state has an empty buffer but a counter
of 1. -/
theorem c10_counterexample :
    (input_delete (input_ins_chr (input_ins_x
      ⟨⟨[], 0, (TERM_MAX_LEN : ℤ)⟩, 0⟩) CHAR_LP)).x_cnt = 1 ∧
    (input_delete (input_ins_chr (input_ins_x
      ⟨⟨[], 0, (TERM_MAX_LEN : ℤ)⟩, 0⟩) CHAR_LP)).fld.buf.count CHAR_X = 0 := by
  decide

/-- Claim C10 (amended): the equality "counter = number of free-variable
characters in the buffer" is preserved by every Entry-mode editing
operation, provided the free-variable key is not pressed while the buffer
is full (the counter is incremented even when the insertion is a capacity
no-op) and no deletion removes a unit containing a free-variable character
(guaranteed by the adjacency constraint `NoXUnit`). -/
theorem c10_theorem (s : InputState)
    (hinv : s.x_cnt = s.fld.buf.count CHAR_X) :
    (∀ c, c ≠ CHAR_X →
      (input_ins_chr s c).x_cnt = (input_ins_chr s c).fld.buf.count CHAR_X) ∧
    (flen s.fld + 1 < s.fld.maxLen →
      (input_ins_x s).x_cnt = (input_ins_x s).fld.buf.count CHAR_X) ∧
    (∀ nm, (∀ c ∈ nm, c ≠ CHAR_X) →
      (input_ins_fn s nm).x_cnt = (input_ins_fn s nm).fld.buf.count CHAR_X) ∧
    ((input_clear s).x_cnt = (input_clear s).fld.buf.count CHAR_X) ∧
    (Good s.fld → NoXUnit s.fld.buf →
      (input_delete s).x_cnt = (input_delete s).fld.buf.count CHAR_X) := by
  have hsplit := List.take_append_drop s.fld.pos.toNat s.fld.buf
  have hcnt : s.fld.buf.count CHAR_X =
      (s.fld.buf.take s.fld.pos.toNat).count CHAR_X +
      (s.fld.buf.drop s.fld.pos.toNat).count CHAR_X := by
    conv_lhs => rw [← hsplit]
    rw [List.count_append]
  refine ⟨?_, ?_, ?_, ?_, ?_⟩
  · intro c hc
    rw [input_ins_chr, field_ins_chr]
    split
    · dsimp only
      rw [List.count_append, List.count_cons]
      simp only [beq_iff_eq, hc, if_false]
      omega
    · exact hinv
  · intro hguard
    rw [input_ins_x, field_ins_chr, if_pos hguard]
    dsimp only
    rw [List.count_append, List.count_cons]
    simp only [beq_self_eq_true, if_true]
    omega
  · intro nm hnm
    rw [input_ins_fn, field_ins_str_P]
    split
    · dsimp only
      have hnm0 : nm.count CHAR_X = 0 :=
        List.count_eq_zero.mpr (fun hmem => (hnm _ hmem) rfl)
      have hlp0 : (CHAR_LP :: s.fld.buf.drop s.fld.pos.toNat).count CHAR_X =
          (s.fld.buf.drop s.fld.pos.toNat).count CHAR_X := by
        simp [List.count_cons, CHAR_LP, CHAR_X]
      rw [List.count_append, List.count_append, hnm0, hlp0]
      omega
    · exact hinv
  · rw [input_clear, field_clear]
    simp
  · intro hg hx
    obtain ⟨pre, post, hbuf, hpos, hwpre, hwpost, hcap⟩ := hg
    by_cases hp : 0 < s.fld.pos
    case neg =>
      rw [input_delete, if_neg hp]
      exact hinv
    case pos =>
    rw [input_delete, if_pos hp]
    have hbcnt : s.fld.buf.count CHAR_X = pre.count CHAR_X + post.count CHAR_X := by
      rw [hbuf, List.count_append]
    rcases wf_right_decomp hwpre with h0 | ⟨l2, c, hcc, hw2, he⟩ |
      ⟨l2, nm, hn, hw2, he⟩
    · subst h0; simp at hpos; omega
    · by_cases hlp : c = CHAR_LP
      · subst hlp
        have hca : charAt s.fld (s.fld.pos - 1) = CHAR_LP :=
          charAt_last hbuf hpos he
        rw [hca, if_neg (by decide), del_lp_desc hbuf hpos he]
        dsimp only
        have hnx := trailing_no_x hbuf he hx
        have hseg : (l2.drop (l2.length - trailLower l2)).count CHAR_X = 0 :=
          List.count_eq_zero.mpr (fun hmem => (hnx _ hmem) rfl)
        have hl2 : l2.count CHAR_X =
            (l2.take (l2.length - trailLower l2)).count CHAR_X := by
          conv_lhs => rw [← List.take_append_drop (l2.length - trailLower l2) l2]
          rw [List.count_append, hseg]
          omega
        have hpcnt : pre.count CHAR_X = l2.count CHAR_X := by
          rw [he, List.count_append]
          simp [CHAR_LP, CHAR_X]
        rw [List.count_append, hinv, hbcnt, hpcnt, hl2]
      · have hca : charAt s.fld (s.fld.pos - 1) = c := charAt_last hbuf hpos he
        rw [hca, del_chr_desc hbuf hpos he hlp]
        dsimp only
        by_cases hcx : c = CHAR_X
        · subst hcx
          rw [if_pos rfl]
          have hpcnt : pre.count CHAR_X = l2.count CHAR_X + 1 := by
            rw [he, List.count_append]
            simp
          rw [List.count_append, hinv, hbcnt, hpcnt]
          omega
        · rw [if_neg hcx]
          have hpcnt : pre.count CHAR_X = l2.count CHAR_X := by
            rw [he, List.count_append, List.count_singleton]
            simp [beq_iff_eq, hcx]
          rw [List.count_append, hinv, hbcnt, hpcnt]
    · have he2 : pre = (l2 ++ nm) ++ [CHAR_LP] := by simp [he]
      have hca : charAt s.fld (s.fld.pos - 1) = CHAR_LP :=
        charAt_last hbuf hpos he2
      rw [hca, if_neg (by decide), del_lp_desc hbuf hpos he2]
      dsimp only
      have hnx := trailing_no_x hbuf he2 hx
      have hseg : ((l2 ++ nm).drop ((l2 ++ nm).length -
          trailLower (l2 ++ nm))).count CHAR_X = 0 :=
        List.count_eq_zero.mpr (fun hmem => (hnx _ hmem) rfl)
      have hl2 : (l2 ++ nm).count CHAR_X =
          ((l2 ++ nm).take ((l2 ++ nm).length -
            trailLower (l2 ++ nm))).count CHAR_X := by
        conv_lhs => rw [← List.take_append_drop
          ((l2 ++ nm).length - trailLower (l2 ++ nm)) (l2 ++ nm)]
        rw [List.count_append, hseg]
        omega
      have hpcnt : pre.count CHAR_X = (l2 ++ nm).count CHAR_X := by
        rw [he2, List.count_append]
        simp [CHAR_LP, CHAR_X]
      rw [List.count_append, hinv, hbcnt, hpcnt, hl2]

/-- Witness for `c10_theorem`: deleting the single free-variable character
from the buffer `"x"` keeps the counter equal to the count. -/
theorem c10_witness :
    (input_delete ⟨⟨[CHAR_X], 1, (TERM_MAX_LEN : ℤ)⟩, 1⟩).x_cnt =
      (input_delete ⟨⟨[CHAR_X], 1, (TERM_MAX_LEN : ℤ)⟩, 1⟩).fld.buf.count
        CHAR_X :=
  (c10_theorem ⟨⟨[CHAR_X], 1, (TERM_MAX_LEN : ℤ)⟩, 1⟩ (by decide)).2.2.2.2
    ⟨[CHAR_X], [], rfl, rfl, WF.chr (by decide) WF.nil, WF.nil, by decide⟩
    (by decide)

/-! ## C2: the commit path of Entry mode -/

/-- Claim C2: on commit in Entry mode, a compile error goes to the Error
mode with that code; otherwise the expression is evaluated with the free
variable as 0 and: with a zero free-variable counter, any evaluation error
goes to Error and success goes to Result(value); with a nonzero counter, a
Math evaluation error is tolerated and the controller still goes to
Settings, success also goes to Settings, and any other evaluation error
goes to Error. -/
theorem c2_theorem (term : List ℕ) (x_cnt : ℕ) :
    (∀ e, calc_prepare term = .error e → mode_input_enter term x_cnt = .error e) ∧
    (∀ ts nums, calc_prepare term = .ok (ts, nums) →
      (x_cnt = 0 →
        (∀ e, calc_solve ts nums 0 = .error e →
          mode_input_enter term x_cnt = .error e) ∧
        (∀ y, calc_solve ts nums 0 = .ok y →
          mode_input_enter term x_cnt = .result y)) ∧
      (x_cnt ≠ 0 →
        (calc_solve ts nums 0 = .error ERROR_MATH →
          mode_input_enter term x_cnt = .settings) ∧
        (∀ e, calc_solve ts nums 0 = .error e → e ≠ ERROR_MATH →
          mode_input_enter term x_cnt = .error e) ∧
        (∀ y, calc_solve ts nums 0 = .ok y →
          mode_input_enter term x_cnt = .settings))) := by
  refine ⟨?_, ?_⟩
  · intro e he
    simp [mode_input_enter, he]
  · intro ts nums hok
    refine ⟨?_, ?_⟩
    · intro h0
      refine ⟨?_, ?_⟩
      · intro e he; simp [mode_input_enter, hok, he, h0]
      · intro y hy; simp [mode_input_enter, hok, hy, h0]
    · intro hne
      refine ⟨?_, ?_, ?_⟩
      · intro he; simp [mode_input_enter, hok, he, hne]
      · intro e he hem; simp [mode_input_enter, hok, he, hne, hem]
      · intro y hy; simp [mode_input_enter, hok, hy, hne]

/-- Witness for `c2_theorem`: committing the buffer `"1"` with a zero
counter evaluates to 1 and enters Result mode. -/
theorem c2_witness : mode_input_enter [49] 0 = .result 1 := by
  have hprep : calc_prepare [49] = .ok ([TT_NUMBER], [1]) := by
    have h : calc_prepare [49] = .ok ([TT_NUMBER], [numValue [49]]) := rfl
    rw [h]; norm_num [numValue, numInt, numFrac, CHAR_DP]
  have hsolve : calc_solve [TT_NUMBER] [1] 0 = .ok 1 := by
    simp [calc_solve, solveGo, TT_NUMBER, NUMBER_STACK_SIZE]
  exact (((c2_theorem [49] 0).2 [TT_NUMBER] [1] hprep).1 rfl).2 1 hsolve

/-! ## C4: Table mode navigation and pointwise evaluation failures -/

/-- Claim C4: in Table mode, entry resets the position to 0 and runs one
display update; each navigation key steps the position (minus 10, minus 1,
reset to 0, plus 1, plus 10) and stays in Table mode (the resulting mode is
`table` no matter what evaluation does); the update computes
`x = start + position * step`, evaluates the retained stream at `x`, and
on any evaluation error renders the fixed ERROR marker (`none`) for `y` —
it cannot leave Table state, since `mode_table_update` installs no
handler. -/
theorem c4_theorem (ts : List ℕ) (nums : List ℚ) (start step pos : ℚ)
    (key : ℕ)
    (hk : unshift key ∈ [KEY_0_1, KEY_1_0, KEY_1_1, KEY_1_2, KEY_2_1]) :
    (mode_table_event pos key).1 = AppMode.table ∧
    (unshift key = KEY_0_1 → (mode_table_event pos key).2 = pos - 10) ∧
    (unshift key = KEY_1_0 → (mode_table_event pos key).2 = pos - 1) ∧
    (unshift key = KEY_1_1 → (mode_table_event pos key).2 = 0) ∧
    (unshift key = KEY_1_2 → (mode_table_event pos key).2 = pos + 1) ∧
    (unshift key = KEY_2_1 → (mode_table_event pos key).2 = pos + 10) ∧
    (mode_table_update ts nums start step (mode_table_event pos key).2).1 =
      start + (mode_table_event pos key).2 * step ∧
    (∀ e, calc_solve ts nums
        ((start + (mode_table_event pos key).2 * step : ℚ) : ℝ) = .error e →
      (mode_table_update ts nums start step (mode_table_event pos key).2).2 =
        none) ∧
    mode_table ts nums start step =
      (0, mode_table_update ts nums start step 0) := by
  have hupd : ∀ p : ℚ,
      (mode_table_update ts nums start step p).1 = start + p * step :=
    fun p => rfl
  have herr : ∀ p : ℚ, ∀ e, calc_solve ts nums ((start + p * step : ℚ) : ℝ) =
      .error e → (mode_table_update ts nums start step p).2 = none := by
    intro p e he
    push_cast at he
    simp [mode_table_update, he]
  simp only [List.mem_cons, List.not_mem_nil, or_false] at hk
  rcases hk with h | h | h | h | h <;>
    exact ⟨by simp [mode_table_event, h, KEY_0_0, KEY_0_1, KEY_1_0, KEY_1_1,
        KEY_1_2, KEY_2_1],
      fun hh => by simp [mode_table_event, hh, KEY_0_0, KEY_0_1, KEY_1_0,
        KEY_1_1, KEY_1_2, KEY_2_1],
      fun hh => by simp [mode_table_event, hh, KEY_0_0, KEY_0_1, KEY_1_0,
        KEY_1_1, KEY_1_2, KEY_2_1],
      fun hh => by simp [mode_table_event, hh, KEY_0_0, KEY_0_1, KEY_1_0,
        KEY_1_1, KEY_1_2, KEY_2_1],
      fun hh => by simp [mode_table_event, hh, KEY_0_0, KEY_0_1, KEY_1_0,
        KEY_1_1, KEY_1_2, KEY_2_1],
      fun hh => by simp [mode_table_event, hh, KEY_0_0, KEY_0_1, KEY_1_0,
        KEY_1_1, KEY_1_2, KEY_2_1],
      hupd _, herr _, rfl⟩

/-- Witness for `c4_theorem`: pressing the up-arrow key (`KEY_1_0`) at
position 0 with the empty (always syntax-failing) stream keeps the mode at
`table` and renders the ERROR marker. -/
theorem c4_witness :
    (mode_table_event 0 KEY_1_0).1 = AppMode.table ∧
    (mode_table_update [] [] 0 1 (mode_table_event 0 KEY_1_0).2).2 = none := by
  have h := c4_theorem [] [] 0 1 0 KEY_1_0 (by decide)
  refine ⟨h.1, h.2.2.2.2.2.2.2.1 ERROR_SYNTAX ?_⟩
  simp [calc_solve, solveGo, ERROR_SYNTAX]

/-! ## C8: the commit path of Settings mode -/

/-- Claim C8: on commit in Settings mode the start field is parsed with
`atof` (so an unparsable start is used as 0.0 and a negative start such as
`"-5"` is used verbatim); a step that parses to exactly zero — including
an unparsable step, which defaults to zero — goes to Error(Range), and
any other step enters Table mode with the parsed start and step and
position 0. -/
theorem c8_theorem (pos : ℚ) (bufStart bufStep : List ℕ) :
    (atof bufStep = 0 → mode_settings_commit pos bufStart bufStep =
      (.error ERROR_RANGE, atof bufStart, 0, pos)) ∧
    (atof bufStep ≠ 0 → mode_settings_commit pos bufStart bufStep =
      (.table, atof bufStart, atof bufStep, 0)) ∧
    atof [45, 53] = -5 ∧ atof [] = 0 ∧ atof [48] = 0 ∧ atof [45] = 0 := by
  refine ⟨?_, ?_, ?_, ?_, ?_, ?_⟩
  · intro h; simp [mode_settings_commit, h]
  · intro h; simp [mode_settings_commit, h]
  · norm_num [atof, atofNum, atofDigits, atofFrac, isDigitB]
  · norm_num [atof, atofNum, atofDigits]
  · norm_num [atof, atofNum, atofDigits, atofFrac, isDigitB]
  · norm_num [atof, atofNum, atofDigits, atofFrac, isDigitB]

/-- Witness for `c8_theorem`: a start field `"-5"` with a step field `"0"`
commits to Error(Range) carrying the verbatim start -5. -/
theorem c8_witness :
    mode_settings_commit 7 [45, 53] [48] = (.error ERROR_RANGE, -5, 0, 7) := by
  have h0 : atof [48] = 0 := (c8_theorem 7 [45, 53] [48]).2.2.2.2.1
  have h := (c8_theorem 7 [45, 53] [48]).1 h0
  rw [h, (c8_theorem 7 [45, 53] [48]).2.2.1]

end AvrCalc
